import Mathlib

set_option linter.unusedSectionVars false

/-!
# Funnel hash table

A shallow embedding of `src/funnel_hashing.cpp` (class `FunnelHashTable<KT, VT>`).

Conventions of the embedding:

* `int` values are mathematical integers (`Int`); the additions of the source that can leave
  the 32-bit range, `_hash_special(key) + j` and `capacity + 1`, are wrapped explicitly
  (`wrap_int`).
* `std::vector` is a `List`; `operator[]` is `at?`, which has no value outside the bounds.
  Reading or writing outside the bounds, and dividing an `int` by zero, is
  `Error.undefined_behaviour`.
* A `throw` is an `Error` result. `insert` mutates the table, so it returns the outcome of
  the call together with the table after the call.
* `double` values are the type `Double`: a finite value, an infinity, or not a number. The
  operations `*`, `/`, `+`, `-` give the exact result rounded to the nearest double
  (`Double.nearest`), as IEEE 754 prescribes; `std::ceil`, `std::floor` and `std::round` are
  exact. Every operation is rounded to `double` on its own: no extended precision, no fused
  multiply-add. The argument `delta` of the constructor is given by its value, a rational
  number, and `is_double` says that a rational number is the value of a double.
* `std::log2` and `std::pow` belong to the math library, which does not fix their results to
  the last bit; together with the random salts drawn by the constructor they are the
  parameter `Platform`. `ref_platform` has the values of glibc at the arguments that the
  concrete tables below need.
* `std::hash<KT>` is the parameter `hasher`.
-/

namespace FunnelHashing

/-- The failures of an operation: the two exception types thrown by the source, with their
message, and undefined behaviour (out-of-bounds vector access, division by zero). -/
inductive Error where
  | invalid_argument (what : String)
  | runtime_error (what : String)
  | undefined_behaviour
deriving DecidableEq

/-- Modelled from the spec: the `Entry` struct of `funnel_hashing.h`, which is not part of
the sources at hand; a slot `{key, value, occupied}`, written `{key, value, true}` by
`insert`. -/
structure Entry (K V : Type) where
  key : K
  value : V
  occupied : Bool
deriving DecidableEq

/-- Modelled from the spec: the data members of `FunnelHashTable` declared in
`funnel_hashing.h`, which is not part of the sources at hand; names and types are those
used by `funnel_hashing.cpp`. -/
structure FunnelHashTable (K V : Type) where
  capacity : Int
  delta : ℚ
  max_inserts : Int
  num_inserts : Int
  special_occupancy : Int
  alpha : Int
  beta : Int
  special_size : Int
  primary_size : Int
  levels : List (List (Entry K V))
  level_bucket_counts : List Int
  level_salts : List Int
  special_array : List (Entry K V)
  special_salt : Int
deriving DecidableEq

/-- The value-initialised `Entry` that a freshly allocated vector holds. -/
def Entry.empty {K V : Type} [Inhabited K] [Inhabited V] : Entry K V :=
  ⟨default, default, false⟩

/-- Vector read `xs[i]` for an `int` index: no value outside `0 ≤ i < xs.size()`. -/
def at? {α : Type} (xs : List α) (i : Int) : Option α :=
  if i < 0 then none else xs[i.toNat]?

/-- Vector write `xs[i] = x` for an index that is in bounds. -/
def setAt {α : Type} (xs : List α) (i : Int) (x : α) : List α :=
  xs.set i.toNat x

/-- Two's complement wrap-around of a 32-bit signed `int`. -/
def wrap_int (x : Int) : Int :=
  (x + 2 ^ 31) % 2 ^ 32 - 2 ^ 31

/-- The power `2 ^ e` of two for an integer exponent. -/
def pow2 (e : Int) : ℚ :=
  if 0 ≤ e then 2 ^ e.toNat else 1 / 2 ^ (-e).toNat

/-- The number of binary digits of `n`, found in at most `fuel` halvings. -/
def binary_digits : Nat → Nat → Nat
  | 0, _ => 0
  | fuel + 1, n => if n = 0 then 0 else binary_digits fuel (n / 2) + 1

/-- The binary exponent of a positive rational `x`: the integer `e` with
`2 ^ e ≤ x < 2 ^ (e + 1)`. The numbers of binary digits of numerator and denominator differ
by `e` or by `e + 1`. -/
def binary_exponent (x : ℚ) : Int :=
  let e : Int :=
    (binary_digits x.num.toNat x.num.toNat : Int) - (binary_digits x.den x.den : Int)
  if pow2 e ≤ x then e else e - 1

/-- The integer nearest to a rational, halfway cases to the even integer. -/
def round_even (x : ℚ) : Int :=
  if x - ⌊x⌋ < 1 / 2 then ⌊x⌋
  else if 1 / 2 < x - ⌊x⌋ then ⌊x⌋ + 1
  else if ⌊x⌋ % 2 = 0 then ⌊x⌋ else ⌊x⌋ + 1

/-- A value of type `double` (IEEE 754 binary64): not a number, an infinity with its sign, or
a finite value. The sign of a zero is not kept; no result of the constructor depends on
it. -/
inductive Double where
  | nan
  | inf (negative : Bool)
  | fin (value : ℚ)
deriving DecidableEq

/-- Rounding of an exact result to `double`, to nearest with halfway cases to the even
significand: 53 significant bits, least exponent `-1022` with gradual underflow (quantum
`2 ^ -1074`), and infinity when the rounded magnitude reaches `2 ^ 1024`. -/
def Double.nearest (x : ℚ) : Double :=
  if x = 0 then .fin 0
  else
    let quantum := pow2 (max (binary_exponent |x|) (-1022) - 52)
    let y : ℚ := (round_even (|x| / quantum) : ℚ) * quantum
    if pow2 1024 ≤ y then .inf (decide (x < 0))
    else .fin (if x < 0 then -y else y)

/-- A rational is the value of a double when rounding leaves it as it is. -/
def is_double (x : ℚ) : Prop :=
  Double.nearest x = .fin x

/-- Conversion of an `int` to `double`, which is exact. -/
def Double.of_int (n : Int) : Double :=
  .fin n

/-- Product `a * b` of two doubles. -/
def Double.mul : Double → Double → Double
  | .fin x, .fin y => Double.nearest (x * y)
  | .fin x, .inf s => if x = 0 then .nan else .inf (xor (decide (x < 0)) s)
  | .inf s, .fin y => if y = 0 then .nan else .inf (xor s (decide (y < 0)))
  | .inf s, .inf s' => .inf (xor s s')
  | _, _ => .nan

/-- Quotient `a / b` of two doubles. -/
def Double.div : Double → Double → Double
  | .fin x, .fin y =>
    if y = 0 then (if x = 0 then .nan else .inf (decide (x < 0))) else Double.nearest (x / y)
  | .fin _, .inf _ => .fin 0
  | .inf s, .fin y => .inf (xor s (decide (y < 0)))
  | _, _ => .nan

/-- Sum `a + b` of two doubles. -/
def Double.add : Double → Double → Double
  | .fin x, .fin y => Double.nearest (x + y)
  | .fin _, .inf s => .inf s
  | .inf s, .fin _ => .inf s
  | .inf s, .inf s' => if s = s' then .inf s else .nan
  | _, _ => .nan

/-- Difference `a - b` of two doubles. -/
def Double.sub : Double → Double → Double
  | .fin x, .fin y => Double.nearest (x - y)
  | .fin _, .inf s => .inf (!s)
  | .inf s, .fin _ => .inf s
  | .inf s, .inf s' => if s = s' then .nan else .inf s
  | _, _ => .nan

/-- Function `std::ceil`. -/
def Double.ceil : Double → Double
  | .fin x => .fin (⌈x⌉ : Int)
  | d => d

/-- Function `std::floor`. -/
def Double.floor : Double → Double
  | .fin x => .fin (⌊x⌋ : Int)
  | d => d

/-- Function `std::round`: the nearest integer, halfway cases away from zero. -/
def Double.round : Double → Double
  | .fin x => .fin (if 0 ≤ x then (⌊x + 1 / 2⌋ : Int) else (⌈x - 1 / 2⌉ : Int))
  | d => d

/-- Comparison `a < b` of two doubles; false when one of them is not a number. -/
def Double.lt : Double → Double → Bool
  | .fin x, .fin y => decide (x < y)
  | .fin _, .inf s => !s
  | .inf s, .fin _ => s
  | .inf s, .inf s' => s && !s'
  | _, _ => false

/-- Comparison `a <= b` of two doubles; false when one of them is not a number. -/
def Double.le : Double → Double → Bool
  | .fin x, .fin y => decide (x ≤ y)
  | .fin _, .inf s => !s
  | .inf s, .fin _ => s
  | .inf s, .inf s' => s || !s'
  | _, _ => false

/-- Conversion `static_cast<int>(x)` of a `double`: truncation toward zero. For a value
whose truncation is not an `int` (also an infinity or not a number) the conversion is
undefined in C++; the model gives what the conversion instruction of x86-64 gives,
`INT_MIN`. -/
def static_cast_int : Double → Int
  | .fin x =>
    let n : Int := if 0 ≤ x then ⌊x⌋ else ⌈x⌉
    if -2 ^ 31 ≤ n ∧ n < 2 ^ 31 then n else -2 ^ 31
  | _ => -2 ^ 31

/-- What the constructor takes from the platform it runs on: the random numbers (the `n`-th
call of `dist(gen)` returns `draw n`) and the functions `std::log2` and `std::pow` of the math
library, whose results are not fixed to the last bit by the language. Of `std::log2` it is
assumed that an argument greater than 1 (`+∞` included) has a logarithm that is at least the
least positive normal double `2 ^ -1022`; the least such logarithm of a double,
`log2(1 + 2 ^ -52)`, is about `3.2e-16`. -/
structure Platform where
  draw : Nat → Int
  log2 : Double → Double
  pow : Double → Double → Double
  log2_pos : ∀ x : Double, Double.lt (.fin 1) x = true →
    Double.le (.fin (pow2 (-1022))) (log2 x) = true

/-- Value of `std::max(1, static_cast<int>(std::ceil(std::log(std::log(capacity + 1) + 1))))`
(natural logarithms), lines 86 and 118. For `capacity + 1 ≥ 1` the expression is at most `n`
exactly when `capacity + 1 ≤ exp (exp n - 1)`, and `exp (e - 1) = 5.57…`,
`exp (e ^ 2 - 1) = 595.29…`, `exp (e ^ 3 - 1) = 194421088.33…`, while `exp (e ^ 4 - 1)`
exceeds every `int`. The sum `capacity + 1` is an `int`: for `capacity = INT_MAX` it wraps to
`INT_MIN`; the logarithm of a number that is not positive is not a number or `-∞`, the
conversion of which gives `INT_MIN`, so the value is 1. -/
def probe_limit (capacity : Int) : Int :=
  if wrap_int (capacity + 1) ≤ 5 then 1
  else if wrap_int (capacity + 1) ≤ 595 then 2
  else if wrap_int (capacity + 1) ≤ 194421088 then 3
  else 4

section Operations

variable {K V : Type} [DecidableEq K]

/-- Lines 11-15: `(hasher(key) ^ salt) & 0x7FFFFFFF`; `hasher(key)` is a 64-bit `size_t`,
the `int` salt is converted to `size_t` (modulo `2 ^ 64`), and the masked result fits an
`int`. -/
def _hash (hasher : K → Nat) (key : K) (salt : Int) : Int :=
  Int.ofNat (((hasher key % 2 ^ 64) ^^^ (salt % 2 ^ 64).toNat) &&& 0x7FFFFFFF)

/-- Lines 17-20: `_hash(key, level_salts[level_index])`. -/
def _hash_level (hasher : K → Nat) (t : FunnelHashTable K V) (key : K) (level_index : Nat) :
    Option Int :=
  (t.level_salts[level_index]?).map (_hash hasher key)

/-- Lines 22-25: `_hash(key, special_salt)`. -/
def _hash_special (hasher : K → Nat) (t : FunnelHashTable K V) (key : K) : Int :=
  _hash hasher key t.special_salt

/-- Lines 76-82, the scan of one bucket by `insert`: `n` iterations are left and the loop
variable is `idx`. The result is the level after the write, or `none` when the loop ends
without a write. -/
def insert_bucket (level : List (Entry K V)) (key : K) (value : V) :
    Int → Nat → Except Error (Option (List (Entry K V)))
  | _, 0 => .ok none
  | idx, n + 1 =>
    match at? level idx with
    | none => .error .undefined_behaviour
    | some e =>
      if e.occupied = false ∨ e.key = key then
        .ok (some (setAt level idx ⟨key, value, true⟩))
      else insert_bucket level key value (idx + 1) n

/-- Lines 69-83, the loop of `insert` over the levels: `n` iterations are left and the loop
variable is `i`. The result is the table after the write and `num_inserts++`, or `none`
when no level took the key. -/
def insert_levels (hasher : K → Nat) (t : FunnelHashTable K V) (key : K) (value : V) :
    Nat → Nat → Except Error (Option (FunnelHashTable K V))
  | _, 0 => .ok none
  | i, n + 1 =>
    match t.levels[i]?, t.level_bucket_counts[i]?, _hash_level hasher t key i with
    | some level, some num_buckets, some h =>
      if num_buckets = 0 then .error .undefined_behaviour
      else
        let bucket_index := Int.tmod h num_buckets
        let start := bucket_index * t.beta
        match insert_bucket level key value start t.beta.toNat with
        | .error e => .error e
        | .ok (some level') =>
          .ok (some { t with levels := t.levels.set i level', num_inserts := t.num_inserts + 1 })
        | .ok none => insert_levels hasher t key value (i + 1) n
    | _, _, _ => .error .undefined_behaviour

/-- Lines 88-96, the probe loop of `insert` over the special array: `n` iterations are left
and the loop variable is `j`. -/
def insert_special (hasher : K → Nat) (t : FunnelHashTable K V) (key : K) (value : V)
    (size : Int) : Int → Nat → Except Error (Option (FunnelHashTable K V))
  | _, 0 => .ok none
  | j, n + 1 =>
    if size = 0 then .error .undefined_behaviour
    else
      let idx := Int.tmod (wrap_int (_hash_special hasher t key + j)) size
      match at? t.special_array idx with
      | none => .error .undefined_behaviour
      | some e =>
        if e.occupied = false ∨ e.key = key then
          .ok (some { t with
            special_array := setAt t.special_array idx ⟨key, value, true⟩
            special_occupancy := t.special_occupancy + 1
            num_inserts := t.num_inserts + 1 })
        else insert_special hasher t key value size (j + 1) n

/-- Lines 65-99, `insert(key, value)`: the outcome of the call (`true`, or the exception)
and the table after the call. -/
def insert (hasher : K → Nat) (t : FunnelHashTable K V) (key : K) (value : V) :
    Except Error Bool × FunnelHashTable K V :=
  if t.num_inserts ≥ t.max_inserts then
    (.error (.runtime_error "Hash table is full."), t)
  else
    match insert_levels hasher t key value 0 t.levels.length with
    | .error e => (.error e, t)
    | .ok (some t') => (.ok true, t')
    | .ok none =>
      match insert_special hasher t key value (t.special_array.length : Int) 0
          (probe_limit t.capacity).toNat with
      | .error e => (.error e, t)
      | .ok (some t') => (.ok true, t')
      | .ok none =>
        (.error (.runtime_error "Special array insertion failed; table is full."), t)

/-- Lines 110-114, the scan of one bucket by `search`. -/
def search_bucket (level : List (Entry K V)) (key : K) :
    Int → Nat → Except Error (Option V)
  | _, 0 => .ok none
  | idx, n + 1 =>
    match at? level idx with
    | none => .error .undefined_behaviour
    | some e =>
      if e.occupied = true ∧ e.key = key then .ok (some e.value)
      else search_bucket level key (idx + 1) n

/-- Lines 103-115, the loop of `search` over the levels. -/
def search_levels (hasher : K → Nat) (t : FunnelHashTable K V) (key : K) :
    Nat → Nat → Except Error (Option V)
  | _, 0 => .ok none
  | i, n + 1 =>
    match t.levels[i]?, t.level_bucket_counts[i]?, _hash_level hasher t key i with
    | some level, some num_buckets, some h =>
      if num_buckets = 0 then .error .undefined_behaviour
      else
        let bucket_index := Int.tmod h num_buckets
        let start := bucket_index * t.beta
        match search_bucket level key start t.beta.toNat with
        | .error e => .error e
        | .ok (some v) => .ok (some v)
        | .ok none => search_levels hasher t key (i + 1) n
    | _, _, _ => .error .undefined_behaviour

/-- Lines 120-125, the probe loop of `search` over the special array. -/
def search_special (hasher : K → Nat) (t : FunnelHashTable K V) (key : K) (size : Int) :
    Int → Nat → Except Error (Option V)
  | _, 0 => .ok none
  | j, n + 1 =>
    if size = 0 then .error .undefined_behaviour
    else
      let idx := Int.tmod (wrap_int (_hash_special hasher t key + j)) size
      match at? t.special_array idx with
      | none => .error .undefined_behaviour
      | some e =>
        if e.occupied = true ∧ e.key = key then .ok (some e.value)
        else search_special hasher t key size (j + 1) n

/-- Lines 101-128, `search(key)`: the optional value, `none` for `std::nullopt`. -/
def search (hasher : K → Nat) (t : FunnelHashTable K V) (key : K) :
    Except Error (Option V) :=
  match search_levels hasher t key 0 t.levels.length with
  | .error e => .error e
  | .ok (some v) => .ok (some v)
  | .ok none =>
    search_special hasher t key (t.special_array.length : Int) 0 (probe_limit t.capacity).toNat

/-- Lines 130-133, `contains(key)`. -/
def contains (hasher : K → Nat) (t : FunnelHashTable K V) (key : K) : Except Error Bool :=
  (search hasher t key).map Option.isSome

/-- Lines 135-138, `size()`. -/
def size (t : FunnelHashTable K V) : Int :=
  t.num_inserts

/-- Lines 50-59, the loop that sizes the levels: `fuel` iterations are left, the loop
variable is `i`; the result lists the values pushed to `level_bucket_counts`. -/
def level_counts (env : Platform) (a1 : Double) : Nat → Nat → Int → List Int
  | 0, _, _ => []
  | fuel + 1, i, remaining_buckets =>
    let a_i := max 1
      (static_cast_int (Double.round (Double.mul a1 (env.pow (.fin (3 / 4)) (.of_int i)))))
    if remaining_buckets ≤ 0 ∨ a_i ≤ 0 then []
    else
      let a_i := min a_i remaining_buckets
      a_i :: level_counts env a1 fuel (i + 1) (remaining_buckets - a_i)

/-- Lines 27-63, the constructor: the table, or the exception thrown. The argument `delta`
is the value of the double passed. Level `i` is created by the `i`-th iteration that does
not leave the loop, so its salt is `env.draw i`, and the special salt is the next draw. -/
def construct [Inhabited K] [Inhabited V] (capacity : Int) (delta : ℚ) (env : Platform) :
    Except Error (FunnelHashTable K V) :=
  if capacity ≤ 0 then .error (.invalid_argument "Capacity must be positive.")
  else if ¬ (0 < delta ∧ delta < 1) then
    .error (.invalid_argument "Delta must be between 0 and 1.")
  else
    let max_inserts :=
      capacity - static_cast_int (Double.mul (.fin delta) (.of_int capacity))
    let log2_inv := env.log2 (Double.div (.of_int 1) (.fin delta))
    let alpha := static_cast_int
      (Double.ceil (Double.add (Double.mul (.of_int 4) log2_inv) (.of_int 10)))
    let beta := static_cast_int (Double.ceil (Double.mul (.of_int 2) log2_inv))
    let special_size := max 1 (static_cast_int (Double.floor
      (Double.div (Double.mul (Double.mul (.of_int 3) (.fin delta)) (.of_int capacity))
        (.of_int 4))))
    let primary_size := capacity - special_size
    if beta = 0 then .error .undefined_behaviour
    else
      let total_buckets := Int.tdiv primary_size beta
      let a1 : Double :=
        if alpha > 0 then
          Double.div (.of_int total_buckets)
            (Double.mul (.of_int 4)
              (Double.sub (.of_int 1) (env.pow (.fin (3 / 4)) (.of_int alpha))))
        else .of_int total_buckets
      let counts := level_counts env a1 alpha.toNat 0 total_buckets
      .ok {
        capacity := capacity
        delta := delta
        max_inserts := max_inserts
        num_inserts := 0
        special_occupancy := 0
        alpha := alpha
        beta := beta
        special_size := special_size
        primary_size := primary_size
        levels := counts.map (fun a_i => List.replicate (a_i * beta).toNat Entry.empty)
        level_bucket_counts := counts
        level_salts := (List.range counts.length).map env.draw
        special_array := List.replicate special_size.toNat Entry.empty
        special_salt := env.draw counts.length }

/-! ## Specification vocabulary: slots, traversal order, invariant -/

/-- A slot of the table: slot `idx` of level `i`, or slot `idx` of the special array. -/
inductive Pos where
  | level (i : Nat) (idx : Int)
  | special (idx : Int)
deriving DecidableEq

/-- The index of a slot inside its array. -/
def Pos.idx : Pos → Int
  | .level _ idx => idx
  | .special idx => idx

/-- The entry held by a slot; `none` when the slot does not exist. -/
def slot (t : FunnelHashTable K V) : Pos → Option (Entry K V)
  | .level i idx => (t.levels[i]?).bind (fun level => at? level idx)
  | .special idx => at? t.special_array idx

/-- The table after `{key, value, true}` is written to a slot and the counters are
incremented the way `insert` does for that slot. -/
def place (t : FunnelHashTable K V) (key : K) (value : V) : Pos → FunnelHashTable K V
  | .level i idx =>
    { t with
      levels := t.levels.set i (setAt (t.levels.getD i []) idx ⟨key, value, true⟩)
      num_inserts := t.num_inserts + 1 }
  | .special idx =>
    { t with
      special_array := setAt t.special_array idx ⟨key, value, true⟩
      special_occupancy := t.special_occupancy + 1
      num_inserts := t.num_inserts + 1 }

/-- The slots of one bucket in scan order. -/
def bucket_probes (i : Nat) : Int → Nat → List Pos
  | _, 0 => []
  | idx, n + 1 => .level i idx :: bucket_probes i (idx + 1) n

/-- The slots that the level loops of `insert` and `search` visit for a key, in order. -/
def level_probes (hasher : K → Nat) (counts salts : List Int) (beta : Int) (key : K) :
    Nat → Nat → List Pos
  | _, 0 => []
  | i, n + 1 =>
    match counts[i]?, salts[i]? with
    | some num_buckets, some salt =>
      bucket_probes i (Int.tmod (_hash hasher key salt) num_buckets * beta) beta.toNat
        ++ level_probes hasher counts salts beta key (i + 1) n
    | _, _ => []

/-- The slots that the special-array loops of `insert` and `search` visit, in order. -/
def special_probes (seed size : Int) : Int → Nat → List Pos
  | _, 0 => []
  | j, n + 1 => .special (Int.tmod (wrap_int (seed + j)) size) :: special_probes seed size (j + 1) n

/-- The traversal order of a key: its bucket in every level, then its special probes. -/
def probes (hasher : K → Nat) (t : FunnelHashTable K V) (key : K) : List Pos :=
  level_probes hasher t.level_bucket_counts t.level_salts t.beta key 0 t.levels.length
    ++ special_probes (_hash_special hasher t key) (t.special_array.length : Int) 0
        (probe_limit t.capacity).toNat

/-- The first slot of a traversal that is empty or holds the key; reading a slot that does
not exist is undefined behaviour. -/
def first_fit (s : Pos → Option (Entry K V)) (key : K) : List Pos → Except Error (Option Pos)
  | [] => .ok none
  | p :: ps =>
    match s p with
    | none => .error .undefined_behaviour
    | some e => if e.occupied = false ∨ e.key = key then .ok (some p) else first_fit s key ps

/-- The value of the first slot of a traversal that is occupied by the key. -/
def first_hit (s : Pos → Option (Entry K V)) (key : K) : List Pos → Except Error (Option V)
  | [] => .ok none
  | p :: ps =>
    match s p with
    | none => .error .undefined_behaviour
    | some e => if e.occupied = true ∧ e.key = key then .ok (some e.value) else first_hit s key ps

/-- The structural invariant of a table: one bucket count and one salt per level, and
level `i` holds `level_bucket_counts[i] ≥ 1` buckets of `beta` slots. -/
structure WF (t : FunnelHashTable K V) : Prop where
  counts_len : t.level_bucket_counts.length = t.levels.length
  salts_len : t.level_salts.length = t.levels.length
  level_len : ∀ (i : Nat) (level : List (Entry K V)) (c : Int), t.levels[i]? = some level → t.level_bucket_counts[i]? = some c →
    1 ≤ c ∧ (level.length : Int) = c * t.beta
  special_len : 1 ≤ t.special_array.length

/-- The slot function after a write to slot `q`. -/
def update_slot (s : Pos → Option (Entry K V)) (q : Pos) (e : Entry K V) :
    Pos → Option (Entry K V) :=
  fun r => if r = q then some e else s r

/-- The value of the most recent entry of a log of successful inserts (newest first) for a
key. -/
def last_value (log : List (K × V)) (k : K) : Option V :=
  match log with
  | [] => none
  | (k', v) :: log => if k' = k then some v else last_value log k

/-- The table states reachable from a freshly constructed table by calls of `insert`, with
the log of the calls that returned `true`, newest first. A call that throws is followed from
the table it leaves and adds nothing to the log; a call with undefined behaviour is not
followed. -/
inductive Reachable [Inhabited K] [Inhabited V] (hasher : K → Nat) :
    FunnelHashTable K V → List (K × V) → Prop
  | fresh (capacity : Int) (delta : ℚ) (env : Platform) (t : FunnelHashTable K V) :
      construct capacity delta env = .ok t → Reachable hasher t []
  | step (t : FunnelHashTable K V) (log : List (K × V)) (key : K) (value : V)
      (t' : FunnelHashTable K V) :
      Reachable hasher t log → insert hasher t key value = (.ok true, t') →
      Reachable hasher t' ((key, value) :: log)
  | thrown (t : FunnelHashTable K V) (log : List (K × V)) (key : K) (value : V)
      (what : String) :
      Reachable hasher t log →
      (insert hasher t key value).1 = .error (.runtime_error what) →
      Reachable hasher (insert hasher t key value).2 log

/-- The invariant of the reachable states. -/
structure Inv (hasher : K → Nat) (t : FunnelHashTable K V) (log : List (K × V)) : Prop where
  wf : WF t
  target : ∀ (p : Pos) (e : Entry K V), slot t p = some e → e.occupied = true →
    first_fit (slot t) e.key (probes hasher t e.key) = .ok (some p)
  stored_value : ∀ (p : Pos) (e : Entry K V), slot t p = some e → e.occupied = true →
    last_value log e.key = some e.value
  stored : ∀ (k : K) (v : V), last_value log k = some v → ∃ p, slot t p = some ⟨k, v, true⟩
  count : t.num_inserts = (log.length : Int)
  bound : t.num_inserts ≤ t.max_inserts
  max_def : t.max_inserts =
    t.capacity - static_cast_int (Double.mul (.fin t.delta) (.of_int t.capacity))
  valid : 0 < t.capacity ∧ 0 < t.delta ∧ t.delta < 1

/-- Successive calls of `insert` on the same table, in list order, stopping at the first
call that does not return. -/
def insert_seq (hasher : K → Nat) (t : FunnelHashTable K V) :
    List (K × V) → Except Error Bool × FunnelHashTable K V
  | [] => (.ok true, t)
  | (k, v) :: rest =>
    match insert hasher t k v with
    | (.ok _, t') => insert_seq hasher t' rest
    | r => r

/-- The bounds on the counters of a table: `0 ≤ num_inserts ≤ max_inserts ≤ capacity` and
`max_inserts = capacity - static_cast<int>(delta * capacity)`, the product being the double
product of line 36. -/
def counters_ok (t : FunnelHashTable K V) : Prop :=
  0 ≤ t.num_inserts ∧ t.num_inserts ≤ t.max_inserts ∧ t.max_inserts ≤ t.capacity ∧
    t.max_inserts =
      t.capacity - static_cast_int (Double.mul (.fin t.delta) (.of_int t.capacity))

/-- The number of slots of a table: the entries of all levels and of the special array. -/
def total_slots (t : FunnelHashTable K V) : Nat :=
  (t.levels.map List.length).sum + t.special_array.length

/-- The number of occupied slots of a table, over all levels and the special array. -/
def occupied_count (t : FunnelHashTable K V) : Nat :=
  (t.levels.map (fun level => level.countP (fun e => e.occupied))).sum
    + t.special_array.countP (fun e => e.occupied)

/-- The growth of `special_occupancy` when `insert` writes a slot: 1 for a special slot, 0
for a slot of a level. -/
def Pos.special_growth : Pos → Int
  | .special _ => 1
  | .level _ _ => 0

/-- The number of distinct keys of a log of successful inserts. -/
def distinct_keys (log : List (K × V)) : Nat :=
  (log.map Prod.fst).dedup.length

deriving instance DecidableEq for Except

/-! ## Concrete tables -/

/-- The double nearest to 0.1, the value of the literal `0.1`. -/
def tenth : ℚ := 3602879701896397 / 36028797018963968

/-- The double nearest to 0.7, the value of the literal `0.7`. -/
def seven_tenths : ℚ := 3152519739159347 / 4503599627370496

/-- The double nearest to 0.29, the value of the literal `0.29`. -/
def twenty_nine_hundredths : ℚ := 5224175567749775 / 18014398509481984

/-- The double nearest to `1e-320`, a subnormal double: `2024 * 2 ^ -1074`. -/
def subnormal_delta : ℚ := 253 / 2 ^ 1071

/-- The function `std::log2` of `ref_platform`. At the arguments that the concrete tables of
this development pass, `2`, `10`, `1 / 0.7`, `1 / 0.29` (the rounded quotients) and `+∞`,
it has the value that glibc returns: `1`, `3.321928094887362`, `0.5145731728297582`,
`1.7858751946471527` and `+∞`. At other positive arguments it stands for the logarithm by
an upper bound of it, the argument itself. -/
def ref_log2 : Double → Double
  | .fin x =>
    if x = 2 then .fin 1
    else if x = 10 then .fin (7480317065143153 / 2251799813685248)
    else if x = 6433713753386423 / 4503599627370496 then
      .fin (2317431549410953 / 4503599627370496)
    else if x = 7764826943742235 / 2251799813685248 then
      .fin (8042866861143129 / 4503599627370496)
    else if 0 < x then .fin x
    else .nan
  | .inf false => .inf false
  | _ => .nan

/-- The function `std::pow` of `ref_platform`, for an exponent that is a natural number: the
exact power, rounded. A power `0.75 ^ n` with `n ≤ 33` is itself a double, which every
`std::pow` of less than one unit of error in the last place returns; the concrete tables of
this development take `n ≤ 24`. -/
def ref_pow : Double → Double → Double
  | .fin b, .fin n => if n.den = 1 ∧ 0 ≤ n.num then Double.nearest (b ^ n.num.toNat) else .nan
  | _, _ => .nan

/-- The platform of the concrete tables: every salt drawn is 0, and the math library is
`ref_log2` and `ref_pow`. -/
def ref_platform : Platform where
  draw := fun _ => 0
  log2 := ref_log2
  pow := ref_pow
  log2_pos := by
    intro x hx
    have hp : pow2 (-1022) ≤ 1 / 2 := by decide!
    cases x with
    | nan => simp [Double.lt] at hx
    | inf s =>
      cases s with
      | true => simp [Double.lt] at hx
      | false => simp [ref_log2, Double.le]
    | fin q =>
      have h1 : (1 : ℚ) < q := by simpa [Double.lt] using hx
      unfold ref_log2
      simp only []
      split_ifs with c1 c2 c3 c4 c5
      · simp only [Double.le, decide_eq_true_eq]
        exact le_trans hp (by norm_num)
      · simp only [Double.le, decide_eq_true_eq]
        exact le_trans hp (by norm_num)
      · simp only [Double.le, decide_eq_true_eq]
        exact le_trans hp (by norm_num)
      · simp only [Double.le, decide_eq_true_eq]
        exact le_trans hp (by norm_num)
      · simp only [Double.le, decide_eq_true_eq]
        exact le_trans hp (by linarith)
      · exact absurd (lt_trans zero_lt_one h1) c5

/-- The table built by `FunnelHashTable(8, 0.5)` when every salt drawn is 0: two levels of
one bucket of two slots, three special slots, `max_inserts = 4`. -/
def demo0 : FunnelHashTable Nat Nat :=
  { capacity := 8, delta := 1 / 2, max_inserts := 4, num_inserts := 0, special_occupancy := 0,
    alpha := 14, beta := 2, special_size := 3, primary_size := 5,
    levels := [List.replicate 2 Entry.empty, List.replicate 2 Entry.empty],
    level_bucket_counts := [1, 1], level_salts := [0, 0],
    special_array := List.replicate 3 Entry.empty, special_salt := 0 }

/-- The table `demo0` after `insert(1, 10)`. -/
def demo1 : FunnelHashTable Nat Nat := (insert id demo0 1 10).2

/-- The table `demo1` after `insert(2, 20)`. -/
def demo2 : FunnelHashTable Nat Nat := (insert id demo1 2 20).2

/-- The table `demo2` after `insert(1, 11)`, which overwrites key 1. -/
def demo3 : FunnelHashTable Nat Nat := (insert id demo2 1 11).2

/-- The table `demo3` after `insert(3, 30)`; four inserts have succeeded. -/
def demo4 : FunnelHashTable Nat Nat := (insert id demo3 3 30).2

/-- The table built by `FunnelHashTable(100, 0.1)` when every salt drawn is 0: nine levels of
3, 2, 2, 1, 1, 1, 1, 1, 1 buckets of seven slots, seven special slots, `max_inserts = 90`. -/
def fresh100 : FunnelHashTable Nat Nat :=
  { capacity := 100, delta := tenth, max_inserts := 90, num_inserts := 0,
    special_occupancy := 0, alpha := 24, beta := 7, special_size := 7, primary_size := 93,
    levels := [3, 2, 2, 1, 1, 1, 1, 1, 1].map (fun a => List.replicate (7 * a) Entry.empty),
    level_bucket_counts := [3, 2, 2, 1, 1, 1, 1, 1, 1],
    level_salts := List.replicate 9 0,
    special_array := List.replicate 7 Entry.empty,
    special_salt := 0 }

/-- Ninety pairwise distinct keys `0, …, 89`, key `k` with value `k + 1000`. -/
def keys90 : List (Nat × Nat) := (List.range 90).map (fun k => (k, k + 1000))

/-- The key-hash function that maps every key to `0x7FFFFFFF`. -/
def hash_max : Nat → Nat := fun _ => 0x7FFFFFFF

/-- The table `fresh100` after the keys `0, …, 63` are inserted under `hash_max`: the bucket
of every level is full and key 63 sits in the first special probe. -/
def blocked100 : FunnelHashTable Nat Nat := (insert_seq hash_max fresh100 (keys90.take 64)).2

/-- The table built by `FunnelHashTable(40, 0.7)` when every salt drawn is 0: seven levels of
3, 2, 1, 1, 1, 1, 1 buckets of two slots, twenty special slots, `max_inserts = 12`. -/
def fresh40 : FunnelHashTable Nat Nat :=
  { capacity := 40, delta := seven_tenths, max_inserts := 12, num_inserts := 0,
    special_occupancy := 0, alpha := 13, beta := 2, special_size := 20, primary_size := 20,
    levels := [3, 2, 1, 1, 1, 1, 1].map (fun a => List.replicate (2 * a) Entry.empty),
    level_bucket_counts := [3, 2, 1, 1, 1, 1, 1],
    level_salts := List.replicate 7 0,
    special_array := List.replicate 20 Entry.empty,
    special_salt := 0 }

/-- The table built by `FunnelHashTable(100, 0.29)` when every salt drawn is 0: eight levels
of 5, 4, 3, 2, 2, 1, 1, 1 buckets of four slots, 21 special slots, `max_inserts = 72`. -/
def fresh100b : FunnelHashTable Nat Nat :=
  { capacity := 100, delta := twenty_nine_hundredths, max_inserts := 72, num_inserts := 0,
    special_occupancy := 0, alpha := 18, beta := 4, special_size := 21, primary_size := 79,
    levels := [5, 4, 3, 2, 2, 1, 1, 1].map (fun a => List.replicate (4 * a) Entry.empty),
    level_bucket_counts := [5, 4, 3, 2, 2, 1, 1, 1],
    level_salts := List.replicate 8 0,
    special_array := List.replicate 21 Entry.empty,
    special_salt := 0 }

/-- The table built by `FunnelHashTable(100, 1e-320)` when every salt drawn is 0. The
quotient `1 / delta` is `+∞`, so are its logarithm and the arguments of the two conversions
to `int`, and `alpha = beta = INT_MIN`: no level, one special slot, `max_inserts = 100`. -/
def tiny100 : FunnelHashTable Nat Nat :=
  { capacity := 100, delta := subnormal_delta, max_inserts := 100, num_inserts := 0,
    special_occupancy := 0, alpha := -2147483648, beta := -2147483648, special_size := 1,
    primary_size := 99,
    levels := [],
    level_bucket_counts := [],
    level_salts := [],
    special_array := List.replicate 1 Entry.empty,
    special_salt := 0 }


/-! ## Lemmas -/

theorem pow2_eq_zpow (e : Int) : pow2 e = (2 : ℚ) ^ e := by
  unfold pow2
  split
  · next h =>
    conv_rhs => rw [← Int.toNat_of_nonneg h]
    rw [zpow_natCast]
  · next h =>
    have h' : 0 ≤ -e := by omega
    have : e = -((-e).toNat : Int) := by rw [Int.toNat_of_nonneg h']; ring
    conv_rhs => rw [this]
    rw [zpow_neg, zpow_natCast, one_div]

theorem pow2_pos (e : Int) : 0 < pow2 e := by
  rw [pow2_eq_zpow]
  positivity

theorem pow2_le_pow2 (a b : Int) (h : a ≤ b) : pow2 a ≤ pow2 b := by
  rw [pow2_eq_zpow, pow2_eq_zpow]
  exact zpow_le_zpow_right₀ (by norm_num) h

theorem pow2_lt_pow2_iff (a b : Int) : pow2 a < pow2 b ↔ a < b := by
  rw [pow2_eq_zpow, pow2_eq_zpow]
  exact zpow_lt_zpow_iff_right₀ (by norm_num)

theorem pow2_add (a b : Int) : pow2 (a + b) = pow2 a * pow2 b := by
  rw [pow2_eq_zpow, pow2_eq_zpow, pow2_eq_zpow, zpow_add₀ (by norm_num)]

theorem pow2_natCast (n : Nat) : pow2 (n : Int) = (2 : ℚ) ^ n := by
  rw [pow2_eq_zpow, zpow_natCast]

theorem binary_digits_spec (fuel n : Nat) (hfuel : n ≤ fuel) (hn : 0 < n) :
    2 ^ (binary_digits fuel n - 1) ≤ n ∧ n < 2 ^ binary_digits fuel n ∧
      1 ≤ binary_digits fuel n := by
  induction fuel generalizing n with
  | zero => omega
  | succ fuel ih =>
    have hn0 : n ≠ 0 := by omega
    simp only [binary_digits, hn0, if_false]
    by_cases h2 : n / 2 = 0
    · have h1 : n = 1 := by omega
      subst h1
      have : binary_digits fuel (1 / 2) = 0 := by
        cases fuel with
        | zero => rfl
        | succ f => simp [binary_digits]
      rw [this]
      simp
    · have hpos : 0 < n / 2 := by omega
      obtain ⟨a, b, c⟩ := ih (n / 2) (by omega) hpos
      refine ⟨?_, ?_, by omega⟩
      · have : binary_digits fuel (n / 2) + 1 - 1 = (binary_digits fuel (n / 2) - 1) + 1 := by
          omega
        rw [this, pow_succ]
        omega
      · rw [pow_succ]
        omega

theorem binary_exponent_spec (x : ℚ) (hx : 0 < x) :
    pow2 (binary_exponent x) ≤ x ∧ x < pow2 (binary_exponent x + 1) := by
  have hnum : 0 < x.num := Rat.num_pos.2 hx
  have hden : 0 < x.den := x.den_pos
  have hn : 0 < x.num.toNat := by omega
  obtain ⟨a1, a2, a3⟩ := binary_digits_spec x.num.toNat x.num.toNat le_rfl hn
  obtain ⟨b1, b2, b3⟩ := binary_digits_spec x.den x.den le_rfl hden
  set a := binary_digits x.num.toNat x.num.toNat with ha
  set b := binary_digits x.den x.den with hb
  have hxeq : x = (x.num.toNat : ℚ) / (x.den : ℚ) := by
    have h1 : ((x.num.toNat : Int) : ℚ) = (x.num : ℚ) := by
      rw [Int.toNat_of_nonneg hnum.le]
    have h2 : (x.num.toNat : ℚ) = (x.num : ℚ) := by
      rw [← h1]; norm_cast
    rw [h2]
    exact (Rat.num_div_den x).symm
  have hdq : (0 : ℚ) < (x.den : ℚ) := by exact_mod_cast hden
  have a1q : (2 : ℚ) ^ (((a - 1 : Nat) : Int)) ≤ (x.num.toNat : ℚ) := by
    rw [zpow_natCast]; exact_mod_cast a1
  have a2q : (x.num.toNat : ℚ) < (2 : ℚ) ^ ((a : Int)) := by
    rw [zpow_natCast]; exact_mod_cast a2
  have b1q : (2 : ℚ) ^ (((b - 1 : Nat) : Int)) ≤ (x.den : ℚ) := by
    rw [zpow_natCast]; exact_mod_cast b1
  have b2q : (x.den : ℚ) < (2 : ℚ) ^ ((b : Int)) := by
    rw [zpow_natCast]; exact_mod_cast b2
  have ha' : ((a - 1 : Nat) : Int) = (a : Int) - 1 := by omega
  have hb' : ((b - 1 : Nat) : Int) = (b : Int) - 1 := by omega
  rw [ha'] at a1q
  rw [hb'] at b1q
  have two_ne : (2 : ℚ) ≠ 0 := by norm_num
  have hupper : x < (2 : ℚ) ^ ((a : Int) - (b : Int) + 1) := by
    rw [hxeq, div_lt_iff₀ hdq]
    calc (x.num.toNat : ℚ) < (2 : ℚ) ^ ((a : Int)) := a2q
      _ = (2 : ℚ) ^ ((a : Int) - (b : Int) + 1) * (2 : ℚ) ^ ((b : Int) - 1) := by
          rw [← zpow_add₀ two_ne]; congr 1; ring
      _ ≤ (2 : ℚ) ^ ((a : Int) - (b : Int) + 1) * (x.den : ℚ) :=
          mul_le_mul_of_nonneg_left b1q (by positivity)
  have hlower : (2 : ℚ) ^ ((a : Int) - (b : Int) - 1) ≤ x := by
    rw [hxeq, le_div_iff₀ hdq]
    calc (2 : ℚ) ^ ((a : Int) - (b : Int) - 1) * (x.den : ℚ)
        ≤ (2 : ℚ) ^ ((a : Int) - (b : Int) - 1) * (2 : ℚ) ^ ((b : Int)) :=
          mul_le_mul_of_nonneg_left b2q.le (by positivity)
      _ = (2 : ℚ) ^ ((a : Int) - 1) := by
          rw [← zpow_add₀ two_ne]; congr 1; ring
      _ ≤ (x.num.toNat : ℚ) := a1q
  unfold binary_exponent
  simp only [← ha, ← hb]
  split
  · next h => exact ⟨h, by rw [pow2_eq_zpow]; exact hupper⟩
  · next h =>
    refine ⟨by rw [pow2_eq_zpow]; exact hlower, ?_⟩
    rw [sub_add_cancel]
    exact lt_of_not_le h

theorem round_even_le (r : ℚ) (n : Int) (h : r ≤ n) : round_even r ≤ n := by
  have hf : ⌊r⌋ ≤ n := by
    have : (⌊r⌋ : ℚ) ≤ n := le_trans (Int.floor_le r) h
    exact_mod_cast this
  unfold round_even
  by_cases hc : r - ⌊r⌋ < 1 / 2
  · simp only [hc, if_true]; exact hf
  · have hne : ⌊r⌋ ≠ n := by
      intro heq
      have h1 : (⌊r⌋ : ℚ) ≤ r := Int.floor_le r
      have : r = (⌊r⌋ : ℚ) := le_antisymm (by rw [heq]; exact h) h1
      apply hc
      rw [← this]
      norm_num
    have : ⌊r⌋ + 1 ≤ n := by omega
    simp only [hc, if_false]
    split_ifs <;> omega

theorem le_round_even (r : ℚ) (n : Int) (h : (n : ℚ) ≤ r) : n ≤ round_even r := by
  have hf : n ≤ ⌊r⌋ := Int.le_floor.2 h
  unfold round_even
  split_ifs <;> omega

theorem lt_round_even (r : ℚ) (n : Int) (h : (n : ℚ) + 1 / 2 < r) : n + 1 ≤ round_even r := by
  have hf : n ≤ ⌊r⌋ := Int.le_floor.2 (by linarith)
  unfold round_even
  by_cases hc : r - ⌊r⌋ < 1 / 2
  · simp only [hc, if_true]
    by_contra hcon
    have heq : ⌊r⌋ = n := by omega
    rw [heq] at hc
    linarith
  · simp only [hc, if_false]
    by_cases hd : 1 / 2 < r - ⌊r⌋
    · simp only [hd, if_true]; omega
    · have hlt : (n : ℚ) < ⌊r⌋ := by linarith
      have hlt' : n < ⌊r⌋ := by exact_mod_cast hlt
      simp only [hd, if_false]
      split_ifs <;> omega

/-- The spacing of the doubles around a positive rational. -/
theorem nearest_of_pos (x : ℚ) (hx : 0 < x) :
    Double.nearest x =
      if pow2 1024 ≤ (round_even (x / pow2 (max (binary_exponent x) (-1022) - 52)) : ℚ)
          * pow2 (max (binary_exponent x) (-1022) - 52)
      then .inf false
      else .fin ((round_even (x / pow2 (max (binary_exponent x) (-1022) - 52)) : ℚ)
          * pow2 (max (binary_exponent x) (-1022) - 52)) := by
  unfold Double.nearest
  have h0 : ¬ x = 0 := ne_of_gt hx
  have h1 : ¬ x < 0 := not_lt.2 hx.le
  simp only [h0, if_false, abs_of_pos hx, h1, decide_False]

theorem nearest_grid_le (x : ℚ) (k m : Int) (h : x ≤ m * pow2 k) :
    (round_even (x / pow2 k) : ℚ) * pow2 k ≤ m * pow2 k := by
  have hq := pow2_pos k
  have : x / pow2 k ≤ m := by rw [div_le_iff₀ hq]; exact h
  have := round_even_le _ _ this
  exact mul_le_mul_of_nonneg_right (by exact_mod_cast this) hq.le

theorem nearest_le_grid (x : ℚ) (k m : Int) (h : (m : ℚ) * pow2 k ≤ x) :
    (m : ℚ) * pow2 k ≤ (round_even (x / pow2 k) : ℚ) * pow2 k := by
  have hq := pow2_pos k
  have : (m : ℚ) ≤ x / pow2 k := by rw [le_div_iff₀ hq]; exact h
  have := le_round_even _ _ this
  exact mul_le_mul_of_nonneg_right (by exact_mod_cast this) hq.le

/-- Rounding does not cross an integer below `2 ^ 53`: a value in `[0, n]` rounds to a
finite double in `[0, n]`. -/
theorem nearest_le_int (x : ℚ) (n : Int) (h0 : 0 ≤ x) (hn : x ≤ n) (hb : n < 2 ^ 53) :
    ∃ y, Double.nearest x = .fin y ∧ 0 ≤ y ∧ y ≤ n := by
  rcases eq_or_lt_of_le h0 with h | hpos
  · subst h
    exact ⟨0, by simp [Double.nearest], le_refl _, hn⟩
  · obtain ⟨e1, -⟩ := binary_exponent_spec x hpos
    have hnq : (n : ℚ) < pow2 53 := by
      rw [show (53 : Int) = ((53 : Nat) : Int) by rfl, pow2_natCast]
      exact_mod_cast hb
    have he : binary_exponent x < 53 := by
      rw [← pow2_lt_pow2_iff]
      exact lt_of_le_of_lt e1 (lt_of_le_of_lt hn hnq)
    set k := max (binary_exponent x) (-1022) - 52 with hk
    have hk0 : k ≤ 0 := by
      have : max (binary_exponent x) (-1022) ≤ 52 := max_le (by omega) (by norm_num)
      omega
    have hgrid : (n : ℚ) = ((n * 2 ^ (-k).toNat : Int) : ℚ) * pow2 k := by
      have h1 : pow2 (((-k).toNat : Int)) * pow2 k = 1 := by
        rw [← pow2_add, Int.toNat_of_nonneg (by omega)]
        simp [pow2]
      rw [pow2_natCast] at h1
      push_cast
      rw [mul_assoc, h1, mul_one]
    have hy1 : (round_even (x / pow2 k) : ℚ) * pow2 k ≤ n := by
      have := nearest_grid_le x k (n * 2 ^ (-k).toNat) (by rw [← hgrid]; exact hn)
      rw [← hgrid] at this
      exact this
    have hy0 : 0 ≤ (round_even (x / pow2 k) : ℚ) * pow2 k := by
      have := nearest_le_grid x k 0 (by simpa using hpos.le)
      simpa using this
    have hno : ¬ pow2 1024 ≤ (round_even (x / pow2 k) : ℚ) * pow2 k := by
      have : pow2 53 ≤ pow2 1024 := pow2_le_pow2 _ _ (by norm_num)
      intro hcon
      linarith
    rw [nearest_of_pos x hpos]
    simp only [← hk, hno, if_false]
    exact ⟨_, rfl, hy0, hy1⟩

/-- Rounding does not flush a value of at least `2 ^ -1074` to zero. -/
theorem nearest_pos (x : ℚ) (hx : pow2 (-1074) ≤ x) :
    Double.nearest x = .inf false ∨ ∃ y, Double.nearest x = .fin y ∧ 0 < y := by
  have hpos : 0 < x := lt_of_lt_of_le (pow2_pos _) hx
  obtain ⟨e1, -⟩ := binary_exponent_spec x hpos
  set k := max (binary_exponent x) (-1022) - 52 with hk
  have hq : pow2 k ≤ x := by
    rcases le_total (binary_exponent x) (-1022) with h | h
    · have : k = -1074 := by rw [hk, max_eq_right h]; norm_num
      rw [this]; exact hx
    · have : k ≤ binary_exponent x := by rw [hk, max_eq_left h]; omega
      exact le_trans (pow2_le_pow2 _ _ this) e1
  have := nearest_le_grid x k 1 (by simpa using hq)
  rw [nearest_of_pos x hpos]
  simp only [← hk]
  split
  · exact Or.inl rfl
  · refine Or.inr ⟨_, rfl, ?_⟩
    have hp := pow2_pos k
    simp only [Int.cast_one, one_mul] at this
    linarith

/-- The greatest double below 1 is `1 - 2 ^ -53`. -/
theorem double_lt_one (delta : ℚ) (hd : is_double delta) (h0 : 0 < delta) (h1 : delta < 1) :
    delta ≤ 1 - pow2 (-53) := by
  have hhalf : pow2 (-53) ≤ 1 / 2 := by
    have := pow2_le_pow2 (-53) (-1) (by norm_num)
    have h2 : pow2 (-1) = 1 / 2 := by simp [pow2]
    rw [h2] at this
    exact this
  by_cases hsmall : delta < 1 / 2
  · linarith
  · obtain ⟨e1, e2⟩ := binary_exponent_spec delta h0
    have he_lt : binary_exponent delta < 0 := by
      rw [← pow2_lt_pow2_iff]
      have : pow2 0 = 1 := by simp [pow2]
      rw [this]
      exact lt_of_le_of_lt e1 h1
    have he_ge : -1 ≤ binary_exponent delta := by
      by_contra hcon
      have hle : binary_exponent delta + 1 ≤ -1 := by omega
      have := pow2_le_pow2 _ _ hle
      have h2 : pow2 (-1) = 1 / 2 := by simp [pow2]
      rw [h2] at this
      exact hsmall (lt_of_lt_of_le e2 this)
    have he : binary_exponent delta = -1 := by omega
    unfold is_double at hd
    rw [nearest_of_pos delta h0, he] at hd
    have hk : max (-1 : Int) (-1022) - 52 = -53 := by norm_num
    rw [hk] at hd
    split at hd
    · cases hd
    · simp only [Double.fin.injEq] at hd
      set M := round_even (delta / pow2 (-53)) with hM
      have hp : pow2 (-53) = 1 / 2 ^ 53 := by simp [pow2]
      have hMlt : (M : ℚ) < 2 ^ 53 := by
        have : (M : ℚ) * pow2 (-53) < 1 := by rw [hd]; exact h1
        rw [hp] at this
        have h53 : (0 : ℚ) < 2 ^ 53 := by positivity
        rw [mul_one_div, div_lt_iff₀ h53] at this
        linarith
      have hMle : M ≤ 2 ^ 53 - 1 := by
        have : M < 2 ^ 53 := by exact_mod_cast hMlt
        omega
      have hMq : (M : ℚ) ≤ 2 ^ 53 - 1 := by exact_mod_cast hMle
      rw [← hd, hp]
      have h53 : (0 : ℚ) < 2 ^ 53 := by positivity
      rw [mul_one_div, div_le_iff₀ h53]
      have : (1 - 1 / (2 : ℚ) ^ 53) * 2 ^ 53 = 2 ^ 53 - 1 := by
        field_simp
      rw [this]
      exact hMq

/-- The quotient `1 / delta` of a double `delta` below 1 is a double above 1, or `+∞`. -/
theorem one_lt_inv_double (delta : ℚ) (hd : is_double delta) (h0 : 0 < delta)
    (h1 : delta < 1) :
    Double.lt (.fin 1) (Double.div (.of_int 1) (.fin delta)) = true := by
  have hu := double_lt_one delta hd h0 h1
  have hp : pow2 (-53) = 1 / 2 ^ 53 := by simp [pow2]
  have hx : 1 + pow2 (-53) < 1 / delta := by
    rw [lt_div_iff₀ h0]
    have hupos := pow2_pos (-53)
    nlinarith
  have hxpos : (0 : ℚ) < 1 / delta := by positivity
  obtain ⟨e1, e2⟩ := binary_exponent_spec (1 / delta) hxpos
  have he0 : 0 ≤ binary_exponent (1 / delta) := by
    by_contra hcon
    have hle : binary_exponent (1 / delta) + 1 ≤ 0 := by omega
    have := pow2_le_pow2 _ _ hle
    have h2 : pow2 0 = 1 := by simp [pow2]
    rw [h2] at this
    have hupos := pow2_pos (-53)
    linarith
  have hk : max (binary_exponent (1 / delta)) (-1022) - 52 = binary_exponent (1 / delta) - 52 := by
    rw [max_eq_left (by omega)]
  have hy : 1 < (round_even (1 / delta / pow2 (binary_exponent (1 / delta) - 52)) : ℚ)
      * pow2 (binary_exponent (1 / delta) - 52) := by
    rcases eq_or_lt_of_le he0 with he | he
    · rw [← he]
      have hq : pow2 (0 - 52) = 1 / 2 ^ 52 := by simp [pow2]
      rw [hq]
      have h52 : (0 : ℚ) < 2 ^ 52 := by positivity
      have hc : ((2 ^ 52 : Int) : ℚ) = (2 : ℚ) ^ 52 := by norm_num
      have : ((2 ^ 52 : Int) : ℚ) + 1 / 2 < 1 / delta / (1 / 2 ^ 52) := by
        rw [hc, lt_div_iff₀ (by positivity)]
        rw [hp] at hx
        have : ((2 : ℚ) ^ 52 + 1 / 2) * (1 / 2 ^ 52) = 1 + 1 / 2 ^ 53 := by
          field_simp; ring
        rw [this]
        exact hx
      have hre := lt_round_even _ _ this
      have hre' : (((2 ^ 52 : Int) + 1 : Int) : ℚ)
          ≤ (round_even (1 / delta / (1 / 2 ^ 52)) : ℚ) := Int.cast_le.2 hre
      rw [Int.cast_add, hc, Int.cast_one] at hre'
      rw [mul_one_div, lt_div_iff₀ h52]
      linarith
    · have hgrid : ((2 ^ 52 : Int) : ℚ) * pow2 (binary_exponent (1 / delta) - 52)
          = pow2 (binary_exponent (1 / delta)) := by
        have : ((2 ^ 52 : Int) : ℚ) = pow2 52 := by
          rw [show (52 : Int) = ((52 : Nat) : Int) from rfl, pow2_natCast]
          norm_num
        rw [this, ← pow2_add]
        congr 1
        ring
      have := nearest_le_grid (1 / delta) (binary_exponent (1 / delta) - 52) (2 ^ 52)
        (by rw [hgrid]; exact e1)
      rw [hgrid] at this
      have h2 : pow2 1 ≤ pow2 (binary_exponent (1 / delta)) := pow2_le_pow2 _ _ (by omega)
      have h3 : pow2 1 = 2 := by simp [pow2]
      rw [h3] at h2
      linarith
  have hne : ¬ delta = 0 := ne_of_gt h0
  simp only [Double.div, Double.of_int, hne, if_false, Int.cast_one]
  rw [nearest_of_pos _ hxpos, hk]
  split
  · rfl
  · simp only [Double.lt, decide_eq_true_eq]
    exact hy

theorem static_cast_int_of_bounds (y : ℚ) (n : Int) (h0 : 0 ≤ y) (hn : y ≤ n)
    (hb : n < 2 ^ 31) :
    static_cast_int (.fin y) = ⌊y⌋ ∧ 0 ≤ ⌊y⌋ ∧ ⌊y⌋ ≤ n := by
  have hf0 : 0 ≤ ⌊y⌋ := Int.floor_nonneg.2 h0
  have hfn : ⌊y⌋ ≤ n := by
    have : (⌊y⌋ : ℚ) ≤ n := le_trans (Int.floor_le y) hn
    exact_mod_cast this
  refine ⟨?_, hf0, hfn⟩
  have h1 : -2 ^ 31 ≤ ⌊y⌋ ∧ ⌊y⌋ < 2 ^ 31 := ⟨by omega, by omega⟩
  simp only [static_cast_int, h0, if_true, h1, and_self]

theorem static_cast_int_range (x : Double) :
    -2 ^ 31 ≤ static_cast_int x ∧ static_cast_int x < 2 ^ 31 := by
  cases x with
  | nan => simp [static_cast_int]
  | inf s => simp [static_cast_int]
  | fin y =>
    unfold static_cast_int
    simp only
    by_cases h : (-2 ^ 31 ≤ (if 0 ≤ y then ⌊y⌋ else ⌈y⌉) ∧
        (if 0 ≤ y then ⌊y⌋ else ⌈y⌉) < 2 ^ 31)
    · rw [if_pos h]; exact h
    · rw [if_neg h]; norm_num

/-- Line 36: the part of the capacity held back, `static_cast<int>(delta * capacity)`, lies
in `[0, capacity]`. -/
theorem held_back_bounds (capacity : Int) (delta : ℚ) (hcap : 0 < capacity)
    (hb : capacity < 2 ^ 31) (h0 : 0 < delta) (h1 : delta < 1) :
    0 ≤ static_cast_int (Double.mul (.fin delta) (.of_int capacity)) ∧
    static_cast_int (Double.mul (.fin delta) (.of_int capacity)) ≤ capacity := by
  have hc : (0 : ℚ) < capacity := by exact_mod_cast hcap
  obtain ⟨y, hy, hy0, hy1⟩ := nearest_le_int (delta * capacity) capacity
    (mul_nonneg h0.le hc.le) (by nlinarith) (by omega)
  simp only [Double.mul, Double.of_int, hy]
  obtain ⟨e, a, b⟩ := static_cast_int_of_bounds y capacity hy0 hy1 hb
  rw [e]
  exact ⟨a, b⟩

/-- Line 40: `static_cast<int>(std::floor(3 * delta * capacity / 4))` lies in
`[0, capacity]`. -/
theorem special_floor_bounds (capacity : Int) (delta : ℚ) (hcap : 0 < capacity)
    (hb : capacity < 2 ^ 31) (h0 : 0 < delta) (h1 : delta < 1) :
    0 ≤ static_cast_int (Double.floor (Double.div
      (Double.mul (Double.mul (.of_int 3) (.fin delta)) (.of_int capacity)) (.of_int 4))) ∧
    static_cast_int (Double.floor (Double.div
      (Double.mul (Double.mul (.of_int 3) (.fin delta)) (.of_int capacity)) (.of_int 4)))
      ≤ capacity := by
  have hc : (0 : ℚ) < capacity := by exact_mod_cast hcap
  obtain ⟨y1, hy1, a1, b1⟩ := nearest_le_int (((3 : Int) : ℚ) * delta) 3
    (by push_cast; linarith) (by push_cast; linarith) (by norm_num)
  obtain ⟨y2, hy2, a2, b2⟩ := nearest_le_int (y1 * capacity) (3 * capacity)
    (mul_nonneg a1 hc.le) (by push_cast at b1 ⊢; nlinarith) (by omega)
  obtain ⟨y3, hy3, a3, b3⟩ := nearest_le_int (y2 / ((4 : Int) : ℚ)) capacity
    (by push_cast; positivity) (by push_cast at b2 ⊢; linarith) (by omega)
  have h4 : ¬ ((4 : Int) : ℚ) = 0 := by norm_num
  simp only [Double.mul, Double.div, Double.of_int, hy1, hy2, h4, if_false, hy3, Double.floor]
  have hf0 : (0 : ℚ) ≤ (⌊y3⌋ : ℚ) := by exact_mod_cast Int.floor_nonneg.2 a3
  have hf1 : ((⌊y3⌋ : Int) : ℚ) ≤ capacity := le_trans (Int.floor_le y3) b3
  obtain ⟨e, a, b⟩ := static_cast_int_of_bounds (⌊y3⌋ : ℚ) capacity hf0 hf1 hb
  rw [e]
  exact ⟨a, b⟩

/-- Line 38: for a double `delta` in `(0, 1)` the value of `beta` is at least 1, or it is
`INT_MIN`, the conversion of `+∞` or of a value beyond the range of `int`. -/
theorem beta_cases (env : Platform) (delta : ℚ) (hd : is_double delta) (h0 : 0 < delta)
    (h1 : delta < 1) :
    1 ≤ static_cast_int (Double.ceil (Double.mul (.of_int 2)
      (env.log2 (Double.div (.of_int 1) (.fin delta))))) ∨
    static_cast_int (Double.ceil (Double.mul (.of_int 2)
      (env.log2 (Double.div (.of_int 1) (.fin delta))))) = -2 ^ 31 := by
  have hlog := env.log2_pos _ (one_lt_inv_double delta hd h0 h1)
  generalize env.log2 (Double.div (.of_int 1) (.fin delta)) = lg at hlog
  cases lg with
  | nan => simp [Double.le] at hlog
  | inf s =>
    cases s with
    | true => simp [Double.le] at hlog
    | false =>
      right
      simp [Double.mul, Double.of_int, Double.ceil, static_cast_int]
  | fin l =>
    simp only [Double.le, decide_eq_true_eq] at hlog
    have hl : pow2 (-1074) ≤ ((2 : Int) : ℚ) * l := by
      have h1 := pow2_le_pow2 (-1074) (-1022) (by norm_num)
      have h2 := pow2_pos (-1022)
      push_cast
      linarith
    simp only [Double.mul, Double.of_int]
    rcases nearest_pos _ hl with h | ⟨y, h, hy⟩
    · right
      rw [h]
      rfl
    · rw [h]
      simp only [Double.ceil, static_cast_int]
      have hc : 1 ≤ ⌈y⌉ := Int.one_le_ceil_iff.2 hy
      have hcq : (0 : ℚ) ≤ ((⌈y⌉ : Int) : ℚ) := by exact_mod_cast (by omega : 0 ≤ ⌈y⌉)
      simp only [hcq, if_true, Int.floor_intCast]
      split
      · left; exact hc
      · right; rfl

/-- Line 36: `static_cast<int>(delta * capacity)` is at most the capacity, also for a
capacity beyond the range of `int`. -/
theorem held_back_le (capacity : Int) (delta : ℚ) (hcap : 0 < capacity) (h0 : 0 < delta)
    (h1 : delta < 1) :
    static_cast_int (Double.mul (.fin delta) (.of_int capacity)) ≤ capacity := by
  by_cases hb : capacity < 2 ^ 31
  · exact (held_back_bounds capacity delta hcap hb h0 h1).2
  · have := (static_cast_int_range (Double.mul (.fin delta) (.of_int capacity))).2
    omega

/-- Line 40: `static_cast<int>(std::floor(3 * delta * capacity / 4))` is at most the
capacity, also for a capacity beyond the range of `int`. -/
theorem special_floor_le (capacity : Int) (delta : ℚ) (hcap : 0 < capacity) (h0 : 0 < delta)
    (h1 : delta < 1) :
    static_cast_int (Double.floor (Double.div
      (Double.mul (Double.mul (.of_int 3) (.fin delta)) (.of_int capacity)) (.of_int 4)))
      ≤ capacity := by
  by_cases hb : capacity < 2 ^ 31
  · exact (special_floor_bounds capacity delta hcap hb h0 h1).2
  · have := (static_cast_int_range (Double.floor (Double.div
      (Double.mul (Double.mul (.of_int 3) (.fin delta)) (.of_int capacity)) (.of_int 4)))).2
    omega

theorem at?_isSome {α : Type} (l : List α) (i : Int) :
    (at? l i).isSome ↔ 0 ≤ i ∧ i.toNat < l.length := by
  unfold at?
  split
  · simp; omega
  · rw [Option.isSome_iff_ne_none, ne_eq, List.getElem?_eq_none_iff]; omega

theorem at?_setAt {α : Type} (l : List α) (i j : Int) (x : α) (h : (at? l i).isSome) :
    at? (setAt l i x) j = if j = i then some x else at? l j := by
  obtain ⟨h0, h1⟩ := (at?_isSome l i).1 h
  unfold at? setAt
  by_cases hj : j < 0
  · have : j ≠ i := by omega
    simp [hj, this]
  · simp only [hj, if_false, List.getElem?_set]
    by_cases hij : j = i
    · subst hij; simp [h1]
    · have : i.toNat ≠ j.toNat := by omega
      simp [hij, this]

theorem first_fit_append (s : Pos → Option (Entry K V)) (key : K) (ps qs : List Pos) :
    first_fit s key (ps ++ qs) =
      match first_fit s key ps with
      | .ok none => first_fit s key qs
      | r => r := by
  induction ps with
  | nil => simp [first_fit]
  | cons p ps ih =>
    simp only [List.cons_append, first_fit]
    cases s p with
    | none => simp
    | some e =>
      simp only
      split
      · rfl
      · exact ih

theorem first_hit_append (s : Pos → Option (Entry K V)) (key : K) (ps qs : List Pos) :
    first_hit s key (ps ++ qs) =
      match first_hit s key ps with
      | .ok none => first_hit s key qs
      | r => r := by
  induction ps with
  | nil => simp [first_hit]
  | cons p ps ih =>
    simp only [List.cons_append, first_hit]
    cases s p with
    | none => simp
    | some e =>
      simp only
      split
      · rfl
      · exact ih

theorem first_fit_mem (s : Pos → Option (Entry K V)) (key : K) (ps : List Pos) (p : Pos)
    (h : first_fit s key ps = .ok (some p)) : p ∈ ps := by
  induction ps with
  | nil => simp [first_fit] at h
  | cons q ps ih =>
    simp only [first_fit] at h
    cases hq : s q with
    | none => simp [hq] at h
    | some e =>
      simp only [hq] at h
      split at h
      · simp at h; simp [h]
      · exact List.mem_cons_of_mem _ (ih h)

theorem first_fit_slot (s : Pos → Option (Entry K V)) (key : K) (ps : List Pos) (p : Pos)
    (h : first_fit s key ps = .ok (some p)) :
    ∃ e, s p = some e ∧ (e.occupied = false ∨ e.key = key) := by
  induction ps with
  | nil => simp [first_fit] at h
  | cons q ps ih =>
    simp only [first_fit] at h
    cases hq : s q with
    | none => simp [hq] at h
    | some e =>
      simp only [hq] at h
      split at h
      · next hfit =>
        simp at h; subst h; exact ⟨e, hq, hfit⟩
      · exact ih h

theorem mem_bucket_probes (i : Nat) (idx : Int) (n : Nat) (p : Pos)
    (h : p ∈ bucket_probes i idx n) : p = .level i p.idx := by
  induction n generalizing idx with
  | zero => simp [bucket_probes] at h
  | succ n ih =>
    simp only [bucket_probes, List.mem_cons] at h
    rcases h with h | h
    · subst h; rfl
    · exact ih _ h

theorem insert_bucket_eq (t : FunnelHashTable K V) (i : Nat) (level : List (Entry K V))
    (hl : t.levels[i]? = some level) (k : K) (v : V) (idx : Int) (n : Nat) :
    insert_bucket level k v idx n =
      match first_fit (slot t) k (bucket_probes i idx n) with
      | .error e => .error e
      | .ok none => .ok none
      | .ok (some p) => .ok (some (setAt level p.idx ⟨k, v, true⟩)) := by
  induction n generalizing idx with
  | zero => simp [insert_bucket, bucket_probes, first_fit]
  | succ n ih =>
    simp only [insert_bucket, bucket_probes, first_fit, slot, hl, Option.some_bind]
    cases at? level idx with
    | none => rfl
    | some e =>
      simp only
      split
      · rfl
      · exact ih _

theorem search_bucket_eq (t : FunnelHashTable K V) (i : Nat) (level : List (Entry K V))
    (hl : t.levels[i]? = some level) (k : K) (idx : Int) (n : Nat) :
    search_bucket level k idx n = first_hit (slot t) k (bucket_probes i idx n) := by
  induction n generalizing idx with
  | zero => simp [search_bucket, bucket_probes, first_hit]
  | succ n ih =>
    simp only [search_bucket, bucket_probes, first_hit, slot, hl, Option.some_bind]
    cases at? level idx with
    | none => rfl
    | some e =>
      simp only
      split
      · rfl
      · exact ih _

theorem insert_levels_eq (hasher : K → Nat) (t : FunnelHashTable K V) (hwf : WF t) (k : K)
    (v : V) (i n : Nat) (hin : i + n = t.levels.length) :
    insert_levels hasher t k v i n =
      match first_fit (slot t) k
          (level_probes hasher t.level_bucket_counts t.level_salts t.beta k i n) with
      | .error e => .error e
      | .ok none => .ok none
      | .ok (some p) => .ok (some (place t k v p)) := by
  induction n generalizing i with
  | zero => simp [insert_levels, level_probes, first_fit]
  | succ n ih =>
    have hi : i < t.levels.length := by omega
    obtain ⟨level, hl⟩ : ∃ level, t.levels[i]? = some level :=
      ⟨t.levels[i], List.getElem?_eq_getElem hi⟩
    have hic : i < t.level_bucket_counts.length := by rw [hwf.counts_len]; exact hi
    have his : i < t.level_salts.length := by rw [hwf.salts_len]; exact hi
    obtain ⟨c, hc⟩ : ∃ c, t.level_bucket_counts[i]? = some c :=
      ⟨t.level_bucket_counts[i], List.getElem?_eq_getElem hic⟩
    obtain ⟨s, hs⟩ : ∃ s, t.level_salts[i]? = some s :=
      ⟨t.level_salts[i], List.getElem?_eq_getElem his⟩
    have hc0 : c ≠ 0 := by
      have := (hwf.level_len i level c hl hc).1
      omega
    simp only [insert_levels, level_probes, _hash_level, hl, hc, hs, Option.map_some', hc0,
      if_false, first_fit_append]
    rw [insert_bucket_eq t i level hl]
    cases hff : first_fit (slot t) k
        (bucket_probes i (Int.tmod (_hash hasher k s) c * t.beta) t.beta.toNat) with
    | error e => rfl
    | ok r =>
      cases r with
      | none => exact ih (i + 1) (by omega)
      | some p =>
        have hp := mem_bucket_probes _ _ _ _ (first_fit_mem _ _ _ _ hff)
        simp only
        rw [hp]
        simp [place, Pos.idx, List.getD_eq_getElem?_getD, hl]

theorem search_levels_eq (hasher : K → Nat) (t : FunnelHashTable K V) (hwf : WF t) (k : K)
    (i n : Nat) (hin : i + n = t.levels.length) :
    search_levels hasher t k i n =
      first_hit (slot t) k
        (level_probes hasher t.level_bucket_counts t.level_salts t.beta k i n) := by
  induction n generalizing i with
  | zero => simp [search_levels, level_probes, first_hit]
  | succ n ih =>
    have hi : i < t.levels.length := by omega
    obtain ⟨level, hl⟩ : ∃ level, t.levels[i]? = some level :=
      ⟨t.levels[i], List.getElem?_eq_getElem hi⟩
    have hic : i < t.level_bucket_counts.length := by rw [hwf.counts_len]; exact hi
    have his : i < t.level_salts.length := by rw [hwf.salts_len]; exact hi
    obtain ⟨c, hc⟩ : ∃ c, t.level_bucket_counts[i]? = some c :=
      ⟨t.level_bucket_counts[i], List.getElem?_eq_getElem hic⟩
    obtain ⟨s, hs⟩ : ∃ s, t.level_salts[i]? = some s :=
      ⟨t.level_salts[i], List.getElem?_eq_getElem his⟩
    have hc0 : c ≠ 0 := by
      have := (hwf.level_len i level c hl hc).1
      omega
    simp only [search_levels, level_probes, _hash_level, hl, hc, hs, Option.map_some', hc0,
      if_false, first_hit_append]
    rw [search_bucket_eq t i level hl]
    cases hff : first_hit (slot t) k
        (bucket_probes i (Int.tmod (_hash hasher k s) c * t.beta) t.beta.toNat) with
    | error e => rfl
    | ok r =>
      cases r with
      | none => exact ih (i + 1) (by omega)
      | some p => rfl

theorem insert_special_eq (hasher : K → Nat) (t : FunnelHashTable K V) (k : K) (v : V)
    (j : Int) (n : Nat) :
    insert_special hasher t k v (t.special_array.length : Int) j n =
      match first_fit (slot t) k
          (special_probes (_hash_special hasher t k) (t.special_array.length : Int) j n) with
      | .error e => .error e
      | .ok none => .ok none
      | .ok (some p) => .ok (some (place t k v p)) := by
  induction n generalizing j with
  | zero => simp [insert_special, special_probes, first_fit]
  | succ n ih =>
    simp only [insert_special, special_probes, first_fit, slot]
    by_cases h0 : (t.special_array.length : Int) = 0
    · have hnil : t.special_array = [] := by
        apply List.eq_nil_of_length_eq_zero; omega
      simp [h0, hnil, at?]
    · simp only [h0, if_false]
      cases at? t.special_array
          (Int.tmod (wrap_int (_hash_special hasher t k + j)) (t.special_array.length : Int)) with
      | none => rfl
      | some e =>
        simp only
        split
        · rfl
        · exact ih _

theorem search_special_eq (hasher : K → Nat) (t : FunnelHashTable K V) (k : K)
    (j : Int) (n : Nat) :
    search_special hasher t k (t.special_array.length : Int) j n =
      first_hit (slot t) k
        (special_probes (_hash_special hasher t k) (t.special_array.length : Int) j n) := by
  induction n generalizing j with
  | zero => simp [search_special, special_probes, first_hit]
  | succ n ih =>
    simp only [search_special, special_probes, first_hit, slot]
    by_cases h0 : (t.special_array.length : Int) = 0
    · have hnil : t.special_array = [] := by
        apply List.eq_nil_of_length_eq_zero; omega
      simp [h0, hnil, at?]
    · simp only [h0, if_false]
      cases at? t.special_array
          (Int.tmod (wrap_int (_hash_special hasher t k + j)) (t.special_array.length : Int)) with
      | none => rfl
      | some e =>
        simp only
        split
        · rfl
        · exact ih _

/-- On a well-formed table `insert` claims the first fitting slot of the traversal. -/
theorem insert_eq (hasher : K → Nat) (t : FunnelHashTable K V) (hwf : WF t) (k : K) (v : V) :
    insert hasher t k v =
      if t.num_inserts ≥ t.max_inserts then
        (.error (.runtime_error "Hash table is full."), t)
      else
        match first_fit (slot t) k (probes hasher t k) with
        | .error e => (.error e, t)
        | .ok none =>
          (.error (.runtime_error "Special array insertion failed; table is full."), t)
        | .ok (some p) => (.ok true, place t k v p) := by
  unfold insert probes
  split
  · rfl
  · rw [insert_levels_eq hasher t hwf k v 0 _ (by simp), insert_special_eq, first_fit_append]
    cases first_fit (slot t) k
        (level_probes hasher t.level_bucket_counts t.level_salts t.beta k 0 t.levels.length) with
    | error e => rfl
    | ok r =>
      cases r with
      | some p => rfl
      | none =>
        simp only
        cases first_fit (slot t) k (special_probes (_hash_special hasher t k)
            (t.special_array.length : Int) 0 (probe_limit t.capacity).toNat) with
        | error e => rfl
        | ok r => cases r <;> rfl

/-- On a well-formed table `search` returns the first hit of the traversal. -/
theorem search_eq (hasher : K → Nat) (t : FunnelHashTable K V) (hwf : WF t) (k : K) :
    search hasher t k = first_hit (slot t) k (probes hasher t k) := by
  unfold search probes
  rw [search_levels_eq hasher t hwf k 0 _ (by simp), search_special_eq, first_hit_append]
  cases first_hit (slot t) k
      (level_probes hasher t.level_bucket_counts t.level_salts t.beta k 0 t.levels.length) with
  | error e => rfl
  | ok r => cases r <;> rfl

theorem slot_place (t : FunnelHashTable K V) (k : K) (v : V) (q : Pos)
    (hq : (slot t q).isSome) (r : Pos) :
    slot (place t k v q) r = if r = q then some ⟨k, v, true⟩ else slot t r := by
  cases q with
  | level i idx =>
    cases hl : t.levels[i]? with
    | none => simp [slot, hl] at hq
    | some level =>
      have hi : i < t.levels.length := by
        by_contra hcon
        rw [List.getElem?_eq_none (by omega)] at hl
        cases hl
      have hsome : (at? level idx).isSome := by simpa [slot, hl] using hq
      cases r with
      | special j => simp [slot, place]
      | level i' j =>
        by_cases hii : i' = i
        · subst hii
          simp only [slot, place, List.getElem?_set, hi, if_true, Option.some_bind,
            List.getD_eq_getElem?_getD, hl, Option.getD_some, at?_setAt _ _ _ _ hsome,
            Pos.level.injEq, true_and]
        · have hne : i ≠ i' := fun h => hii h.symm
          simp [slot, place, List.getElem?_set, hne, hii]
  | special idx =>
    have hsome : (at? t.special_array idx).isSome := by simpa [slot] using hq
    cases r with
    | level i' j => simp [slot, place]
    | special j => simp [slot, place, at?_setAt _ _ _ _ hsome]

theorem probes_place (hasher : K → Nat) (t : FunnelHashTable K V) (k : K) (v : V) (q : Pos)
    (key : K) : probes hasher (place t k v q) key = probes hasher t key := by
  cases q <;> simp [probes, place, _hash_special, setAt]

theorem WF_place (t : FunnelHashTable K V) (hwf : WF t) (k : K) (v : V) (q : Pos) :
    WF (place t k v q) := by
  cases q with
  | level i idx =>
    refine ⟨?_, ?_, ?_, hwf.special_len⟩
    · simpa [place] using hwf.counts_len
    · simpa [place] using hwf.salts_len
    · intro i' level c hl hc
      simp only [place, List.getElem?_set] at hl hc
      by_cases hii : i = i'
      · subst hii
        simp only [if_true] at hl
        split at hl
        · next hi =>
          have hold : t.levels[i]? = some t.levels[i] := List.getElem?_eq_getElem hi
          have := hwf.level_len i _ c hold hc
          simp only [Option.some.injEq] at hl
          subst hl
          simpa [setAt, List.getD_eq_getElem?_getD, hold] using this
        · cases hl
      · simp only [hii, if_false] at hl
        exact hwf.level_len i' level c hl hc
  | special idx =>
    refine ⟨hwf.counts_len, hwf.salts_len, hwf.level_len, ?_⟩
    simpa [place, setAt] using hwf.special_len

theorem first_fit_update_self (s : Pos → Option (Entry K V)) (k : K) (v : V) (q : Pos)
    (ps : List Pos) (h : first_fit s k ps = .ok (some q)) :
    first_fit (update_slot s q ⟨k, v, true⟩) k ps = .ok (some q) := by
  induction ps with
  | nil => simp [first_fit] at h
  | cons p ps ih =>
    simp only [first_fit] at h ⊢
    by_cases hpq : p = q
    · subst hpq
      simp [update_slot]
    · cases hp : s p with
      | none => simp [hp] at h
      | some e =>
        simp only [hp] at h
        simp only [update_slot, hpq, if_false, hp]
        split at h
        · simp at h; exact absurd h hpq
        · next hfit =>
          simp only [hfit, if_false]
          exact ih h

theorem first_fit_update_other (s : Pos → Option (Entry K V)) (k k' : K) (v : V) (p q : Pos)
    (hk : k' ≠ k) (hpq : p ≠ q) (ps : List Pos) (h : first_fit s k' ps = .ok (some p)) :
    first_fit (update_slot s q ⟨k, v, true⟩) k' ps = .ok (some p) := by
  induction ps with
  | nil => simp [first_fit] at h
  | cons r ps ih =>
    simp only [first_fit] at h ⊢
    cases hr : s r with
    | none => simp [hr] at h
    | some e =>
      simp only [hr] at h
      by_cases hfit : e.occupied = false ∨ e.key = k'
      · simp only [hfit, if_true] at h
        simp only [Except.ok.injEq, Option.some.injEq] at h
        subst h
        simp [update_slot, hpq, hr, hfit]
      · simp only [hfit, if_false] at h
        by_cases hrq : r = q
        · subst hrq
          have : ¬ k = k' := fun h' => hk h'.symm
          simp only [update_slot, if_true, Bool.true_eq_false, false_or, this, if_false]
          exact ih h
        · simp only [update_slot, hrq, if_false, hr, hfit]
          exact ih h

theorem first_hit_of_first_fit (s : Pos → Option (Entry K V)) (k : K) (p : Pos)
    (e : Entry K V) (hp : s p = some e) (hocc : e.occupied = true) (ps : List Pos)
    (h : first_fit s k ps = .ok (some p)) : first_hit s k ps = .ok (some e.value) := by
  induction ps with
  | nil => simp [first_fit] at h
  | cons r ps ih =>
    simp only [first_fit] at h
    simp only [first_hit]
    cases hr : s r with
    | none => simp [hr] at h
    | some e' =>
      simp only [hr] at h ⊢
      by_cases hfit : e'.occupied = false ∨ e'.key = k
      · simp only [hfit, if_true, Except.ok.injEq, Option.some.injEq] at h
        subst h
        rw [hp] at hr
        simp only [Option.some.injEq] at hr
        subst hr
        have hkey : e.key = k := by
          rcases hfit with h1 | h1
          · rw [hocc] at h1; cases h1
          · exact h1
        simp [hocc, hkey]
      · simp only [hfit, if_false] at h
        have hnot : ¬ (e'.occupied = true ∧ e'.key = k) := fun hh => hfit (Or.inr hh.2)
        simp only [hnot, if_false]
        exact ih h

theorem first_hit_value (s : Pos → Option (Entry K V)) (k : K) (v : V) (ps : List Pos)
    (h : first_hit s k ps = .ok (some v)) :
    ∃ p e, p ∈ ps ∧ s p = some e ∧ e.occupied = true ∧ e.key = k ∧ e.value = v := by
  induction ps with
  | nil => simp [first_hit] at h
  | cons r ps ih =>
    simp only [first_hit] at h
    cases hr : s r with
    | none => simp [hr] at h
    | some e' =>
      simp only [hr] at h
      split at h
      · next hhit =>
        simp only [Except.ok.injEq, Option.some.injEq] at h
        exact ⟨r, e', List.mem_cons_self _ _, hr, hhit.1, hhit.2, h⟩
      · obtain ⟨p, e, hm, hrest⟩ := ih h
        exact ⟨p, e, List.mem_cons_of_mem _ hm, hrest⟩

theorem insert_ok (hasher : K → Nat) (t t' : FunnelHashTable K V) (hwf : WF t) (k : K)
    (v : V) (b : Bool) (h : insert hasher t k v = (.ok b, t')) :
    b = true ∧ t.num_inserts < t.max_inserts ∧
      ∃ q, first_fit (slot t) k (probes hasher t k) = .ok (some q) ∧ t' = place t k v q := by
  rw [insert_eq hasher t hwf] at h
  split at h
  · simp at h
  · next hfull =>
    cases hff : first_fit (slot t) k (probes hasher t k) with
    | error e => simp [hff] at h
    | ok r =>
      cases r with
      | none => simp [hff] at h
      | some q =>
        simp only [hff, Prod.mk.injEq, Except.ok.injEq] at h
        exact ⟨h.1.symm, by omega, q, rfl, h.2.symm⟩

theorem slot_place_eq (t : FunnelHashTable K V) (k : K) (v : V) (q : Pos)
    (hq : (slot t q).isSome) :
    slot (place t k v q) = update_slot (slot t) q ⟨k, v, true⟩ := by
  funext r
  exact slot_place t k v q hq r

theorem place_num_inserts (t : FunnelHashTable K V) (k : K) (v : V) (q : Pos) :
    (place t k v q).num_inserts = t.num_inserts + 1 ∧
    (place t k v q).max_inserts = t.max_inserts ∧
    (place t k v q).capacity = t.capacity ∧
    (place t k v q).delta = t.delta := by
  cases q <;> simp [place]

theorem Inv_insert (hasher : K → Nat) (t t' : FunnelHashTable K V) (log : List (K × V))
    (k : K) (v : V) (hinv : Inv hasher t log) (h : insert hasher t k v = (.ok true, t')) :
    Inv hasher t' ((k, v) :: log) := by
  obtain ⟨-, hlt, q, hq, rfl⟩ := insert_ok hasher t t' hinv.wf k v true h
  obtain ⟨eq, heq, hfitq⟩ := first_fit_slot _ _ _ _ hq
  have hsome : (slot t q).isSome := by simp [heq]
  have hslot := slot_place_eq t k v q hsome
  obtain ⟨hn, hm, hc, hd⟩ := place_num_inserts t k v q
  -- an occupied slot that holds `k` is the slot `q` claimed by the insert
  have hother : ∀ (p : Pos) (e : Entry K V), slot t p = some e → e.occupied = true →
      e.key = k → p = q := by
    intro p e hp hocc hkey
    have := hinv.target p e hp hocc
    rw [hkey, hq] at this
    simp only [Except.ok.injEq, Option.some.injEq] at this
    exact this.symm
  refine ⟨WF_place t hinv.wf k v q, ?_, ?_, ?_, ?_, ?_, ?_, ?_⟩
  · intro p e hp hocc
    rw [probes_place, hslot]
    rw [hslot] at hp
    by_cases hpq : p = q
    · subst hpq
      simp only [update_slot, if_true, Option.some.injEq] at hp
      subst hp
      exact first_fit_update_self _ _ _ _ _ hq
    · simp only [update_slot, hpq, if_false] at hp
      have hkey : e.key ≠ k := fun hk => hpq (hother p e hp hocc hk)
      exact first_fit_update_other _ _ _ _ _ _ hkey hpq _ (hinv.target p e hp hocc)
  · intro p e hp hocc
    rw [hslot] at hp
    by_cases hpq : p = q
    · subst hpq
      simp only [update_slot, if_true, Option.some.injEq] at hp
      subst hp
      simp [last_value]
    · simp only [update_slot, hpq, if_false] at hp
      have hkey : ¬ k = e.key := fun hk => hpq (hother p e hp hocc hk.symm)
      simp only [last_value, hkey, if_false]
      exact hinv.stored_value p e hp hocc
  · intro k' v' hlast
    rw [hslot]
    by_cases hk : k = k'
    · subst hk
      simp only [last_value, if_true, Option.some.injEq] at hlast
      subst hlast
      exact ⟨q, by simp [update_slot]⟩
    · simp only [last_value, hk, if_false] at hlast
      obtain ⟨p, hp⟩ := hinv.stored k' v' hlast
      have hpq : p ≠ q := by
        intro hpq
        subst hpq
        rw [heq] at hp
        simp only [Option.some.injEq] at hp
        subst hp
        rcases hfitq with h1 | h1
        · simp at h1
        · exact hk h1.symm
      exact ⟨p, by simp [update_slot, hpq, hp]⟩
  · rw [hn, hinv.count]; simp
  · rw [hn, hm]; omega
  · rw [hm, hc, hd]; exact hinv.max_def
  · rw [hc, hd]; exact hinv.valid

theorem at?_mem {α : Type} (l : List α) (i : Int) (x : α) (h : at? l i = some x) : x ∈ l := by
  unfold at? at h
  split at h
  · cases h
  · exact List.getElem?_mem h

theorem slot_unoccupied (t : FunnelHashTable K V)
    (hl : ∀ level ∈ t.levels, ∀ e ∈ level, e.occupied = false)
    (hs : ∀ e ∈ t.special_array, e.occupied = false) (p : Pos) (e : Entry K V)
    (hp : slot t p = some e) : e.occupied = false := by
  cases p with
  | level i idx =>
    simp only [slot] at hp
    cases hi : t.levels[i]? with
    | none => simp [hi] at hp
    | some level =>
      simp only [hi, Option.some_bind] at hp
      exact hl level (List.getElem?_mem hi) e (at?_mem _ _ _ hp)
  | special idx => exact hs e (at?_mem _ _ _ hp)

theorem level_counts_pos (env : Platform) (a1 : Double) (fuel i : Nat) (remaining : Int) :
    ∀ c ∈ level_counts env a1 fuel i remaining, 1 ≤ c := by
  induction fuel generalizing i remaining with
  | zero => simp [level_counts]
  | succ fuel ih =>
    intro c hc
    simp only [level_counts] at hc
    split at hc
    · simp at hc
    · next hcond =>
      simp only [List.mem_cons] at hc
      rcases hc with hc | hc
      · subst hc
        have h1 : ¬ remaining ≤ 0 := fun h => hcond (Or.inl h)
        exact le_min (le_max_left _ _) (by omega)
      · exact ih _ _ c hc

theorem level_counts_of_nonpos (env : Platform) (a1 : Double) (fuel i : Nat)
    (remaining : Int) (h : remaining ≤ 0) : level_counts env a1 fuel i remaining = [] := by
  cases fuel with
  | zero => rfl
  | succ fuel => simp [level_counts, h]

theorem level_counts_sum_le (env : Platform) (a1 : Double) (fuel i : Nat) (remaining : Int)
    (h : 0 ≤ remaining) : (level_counts env a1 fuel i remaining).sum ≤ remaining := by
  induction fuel generalizing i remaining with
  | zero => simpa [level_counts] using h
  | succ fuel ih =>
    simp only [level_counts]
    split
    · simpa using h
    · simp only [List.sum_cons]
      have hmin := min_le_right (max 1 (static_cast_int (Double.round (Double.mul a1
        (env.pow (.fin (3 / 4)) (.of_int i)))))) remaining
      have := ih (i + 1) (remaining - min (max 1 (static_cast_int (Double.round (Double.mul a1
        (env.pow (.fin (3 / 4)) (.of_int i)))))) remaining) (by omega)
      omega

theorem level_counts_length_le (env : Platform) (a1 : Double) (fuel i : Nat)
    (remaining : Int) : (level_counts env a1 fuel i remaining).length ≤ fuel := by
  induction fuel generalizing i remaining with
  | zero => simp [level_counts]
  | succ fuel ih =>
    simp only [level_counts]
    split
    · simp
    · simp only [List.length_cons]
      have := ih (i + 1) (remaining - min (max 1 (static_cast_int (Double.round (Double.mul a1
        (env.pow (.fin (3 / 4)) (.of_int i)))))) remaining)
      omega

/-- The fields of a constructed table, as the constructor computes them. -/
theorem construct_fields [Inhabited K] [Inhabited V] (capacity : Int) (delta : ℚ)
    (env : Platform) (t : FunnelHashTable K V) (h : construct capacity delta env = .ok t) :
    t.alpha = static_cast_int (Double.ceil (Double.add (Double.mul (.of_int 4)
      (env.log2 (Double.div (.of_int 1) (.fin delta)))) (.of_int 10))) ∧
    t.beta = static_cast_int (Double.ceil (Double.mul (.of_int 2)
      (env.log2 (Double.div (.of_int 1) (.fin delta))))) ∧
    t.beta ≠ 0 ∧
    t.special_size = max 1 (static_cast_int (Double.floor (Double.div
      (Double.mul (Double.mul (.of_int 3) (.fin delta)) (.of_int capacity)) (.of_int 4)))) ∧
    t.primary_size = capacity - t.special_size ∧
    (∃ a1 : Double, t.level_bucket_counts =
      level_counts env a1 t.alpha.toNat 0 (Int.tdiv t.primary_size t.beta)) ∧
    t.levels = t.level_bucket_counts.map
      (fun a_i => List.replicate (a_i * t.beta).toNat Entry.empty) ∧
    t.level_salts = (List.range t.level_bucket_counts.length).map env.draw ∧
    t.special_array = List.replicate t.special_size.toNat Entry.empty ∧
    t.special_salt = env.draw t.level_bucket_counts.length := by
  unfold construct at h
  split at h
  · cases h
  · split at h
    · cases h
    · simp only at h
      split at h
      · cases h
      · next hbeta =>
        simp only [Except.ok.injEq] at h
        subst h
        exact ⟨rfl, rfl, hbeta, rfl, rfl, ⟨_, rfl⟩, rfl, rfl, rfl, rfl⟩

/-- What a successful construction returns. -/
theorem construct_ok [Inhabited K] [Inhabited V] (capacity : Int) (delta : ℚ)
    (env : Platform) (t : FunnelHashTable K V) (h : construct capacity delta env = .ok t) :
    0 < capacity ∧ 0 < delta ∧ delta < 1 ∧
    t.capacity = capacity ∧ t.delta = delta ∧ t.num_inserts = 0 ∧ t.special_occupancy = 0 ∧
    t.max_inserts = capacity - static_cast_int (Double.mul (.fin delta) (.of_int capacity)) ∧
    (∀ (p : Pos) (e : Entry K V), slot t p = some e → e.occupied = false) := by
  unfold construct at h
  split at h
  · cases h
  · next hcap =>
    split at h
    · cases h
    · next hdelta =>
      simp only [not_not] at hdelta
      simp only at h
      split at h
      · cases h
      · simp only [Except.ok.injEq] at h
        subst h
        refine ⟨by omega, hdelta.1, hdelta.2, rfl, rfl, rfl, rfl, rfl, ?_⟩
        apply slot_unoccupied
        · intro level hlevel e he
          simp only [List.mem_map] at hlevel
          obtain ⟨a, -, rfl⟩ := hlevel
          rw [List.eq_of_mem_replicate he]
          rfl
        · intro e he
          rw [List.eq_of_mem_replicate he]
          rfl

/-- The partition of the capacity of a constructed table. -/
theorem construct_partition [Inhabited K] [Inhabited V] (capacity : Int) (delta : ℚ)
    (env : Platform) (t : FunnelHashTable K V) (h : construct capacity delta env = .ok t) :
    1 ≤ t.special_size ∧ t.special_size ≤ capacity ∧ 0 ≤ t.primary_size ∧
    t.primary_size + t.special_size = capacity := by
  obtain ⟨hcap, h0, h1, -, -, -, -, -, -⟩ := construct_ok capacity delta env t h
  obtain ⟨-, -, -, hs, hp, -, -, -, -, -⟩ := construct_fields capacity delta env t h
  have hle := special_floor_le capacity delta hcap h0 h1
  have h1s : 1 ≤ t.special_size := by rw [hs]; exact le_max_left _ _
  have hsc : t.special_size ≤ capacity := by rw [hs]; exact max_le (by omega) hle
  exact ⟨h1s, hsc, by omega, by omega⟩

theorem beta_nonneg_of_level (c beta : Int) (n : Nat) (hc : 1 ≤ c) (h : (n : Int) = c * beta) :
    0 ≤ beta := by
  by_contra hneg
  have h0 : (0 : Int) ≤ (n : Int) := Int.natCast_nonneg _
  have : c * beta < 0 := by nlinarith
  omega

/-- A table with a level has `beta ≥ 1`: the level budget `primary_size / beta` is
positive. -/
theorem construct_beta_pos [Inhabited K] [Inhabited V] (capacity : Int) (delta : ℚ)
    (env : Platform) (t : FunnelHashTable K V) (h : construct capacity delta env = .ok t)
    (hne : t.level_bucket_counts ≠ []) : 1 ≤ t.beta := by
  obtain ⟨-, -, hp0, -⟩ := construct_partition capacity delta env t h
  obtain ⟨-, -, hb0, -, -, ⟨a1, hcounts⟩, -, -, -, -⟩ := construct_fields capacity delta env t h
  by_contra hcon
  have hle : Int.tdiv t.primary_size t.beta ≤ 0 := Int.tdiv_nonpos hp0 (by omega)
  rw [hcounts, level_counts_of_nonpos env a1 _ _ _ hle] at hne
  exact hne rfl

/-- A constructed table is well formed. -/
theorem construct_wf [Inhabited K] [Inhabited V] (capacity : Int) (delta : ℚ)
    (env : Platform) (t : FunnelHashTable K V) (h : construct capacity delta env = .ok t) :
    WF t := by
  obtain ⟨h1s, -, -, -⟩ := construct_partition capacity delta env t h
  obtain ⟨-, -, -, -, -, ⟨a1, hcounts⟩, hlev, hsalts, hsa, -⟩ :=
    construct_fields capacity delta env t h
  refine ⟨by rw [hlev]; simp, by rw [hsalts, hlev]; simp, ?_, ?_⟩
  · intro i level c hl hc
    have hne : t.level_bucket_counts ≠ [] := by
      intro hnil
      rw [hnil] at hc
      simp at hc
    have hbeta := construct_beta_pos capacity delta env t h hne
    have hc1 : 1 ≤ c := by
      have hmem := List.getElem?_mem hc
      rw [hcounts] at hmem
      exact level_counts_pos _ _ _ _ _ c hmem
    rw [hlev] at hl
    simp only [List.getElem?_map, hc, Option.map_some', Option.some.injEq] at hl
    subst hl
    refine ⟨hc1, ?_⟩
    have : 0 ≤ c * t.beta := mul_nonneg (by omega) (by omega)
    simp only [List.length_replicate]
    exact Int.toNat_of_nonneg this
  · rw [hsa, List.length_replicate]
    omega

theorem Inv_construct [Inhabited K] [Inhabited V] (hasher : K → Nat) (capacity : Int)
    (delta : ℚ) (env : Platform) (t : FunnelHashTable K V)
    (h : construct capacity delta env = .ok t) : Inv hasher t [] := by
  obtain ⟨hcap, h0, h1, htc, htd, hn, -, hmax, hempty⟩ := construct_ok capacity delta env t h
  have hf1 := held_back_le capacity delta hcap h0 h1
  refine ⟨construct_wf capacity delta env t h, ?_, ?_, ?_, ?_, ?_, ?_, ?_⟩
  · intro p e hp hocc
    rw [hempty p e hp] at hocc
    cases hocc
  · intro p e hp hocc
    rw [hempty p e hp] at hocc
    cases hocc
  · intro k v hlast
    simp [last_value] at hlast
  · simp [hn]
  · rw [hn, hmax]; omega
  · rw [hmax, htc, htd]
  · rw [htc, htd]; exact ⟨hcap, h0, h1⟩

theorem insert_bucket_error (level : List (Entry K V)) (k : K) (v : V) (idx : Int) (n : Nat)
    (e : Error) (h : insert_bucket level k v idx n = .error e) :
    e = .undefined_behaviour := by
  induction n generalizing idx with
  | zero => simp [insert_bucket] at h
  | succ n ih =>
    simp only [insert_bucket] at h
    split at h
    · simp only [Except.error.injEq] at h; exact h.symm
    · split at h
      · cases h
      · exact ih _ h

/-- A placement by the level loop increments `num_inserts` and leaves the sizing alone. -/
theorem insert_levels_result (hasher : K → Nat) (t : FunnelHashTable K V) (k : K) (v : V)
    (i n : Nat) :
    (∀ e, insert_levels hasher t k v i n = .error e → e = .undefined_behaviour) ∧
    (∀ t', insert_levels hasher t k v i n = .ok (some t') →
      t'.num_inserts = t.num_inserts + 1 ∧ t'.max_inserts = t.max_inserts ∧
      t'.capacity = t.capacity ∧ t'.delta = t.delta) := by
  induction n generalizing i with
  | zero => simp [insert_levels]
  | succ n ih =>
    simp only [insert_levels]
    split
    · split
      · simp
      · cases hb : insert_bucket _ k v _ t.beta.toNat with
        | error e =>
          have := insert_bucket_error _ _ _ _ _ _ hb
          subst this
          simp
        | ok r =>
          cases r with
          | none => exact ih (i + 1)
          | some level' =>
            refine ⟨by simp, ?_⟩
            intro t' ht'
            simp only [Except.ok.injEq, Option.some.injEq] at ht'
            subst ht'
            simp
    · simp

theorem insert_special_result (hasher : K → Nat) (t : FunnelHashTable K V) (k : K) (v : V)
    (size j : Int) (n : Nat) :
    (∀ e, insert_special hasher t k v size j n = .error e → e = .undefined_behaviour) ∧
    (∀ t', insert_special hasher t k v size j n = .ok (some t') →
      t'.num_inserts = t.num_inserts + 1 ∧ t'.max_inserts = t.max_inserts ∧
      t'.capacity = t.capacity ∧ t'.delta = t.delta) := by
  induction n generalizing j with
  | zero => simp [insert_special]
  | succ n ih =>
    simp only [insert_special]
    split
    · simp
    · split
      · simp
      · split
        · refine ⟨by simp, ?_⟩
          intro t' ht'
          simp only [Except.ok.injEq, Option.some.injEq] at ht'
          subst ht'
          simp
        · exact ih (j + 1)

/-- The four ways a call of `insert` ends, on an arbitrary table. -/
theorem insert_cases (hasher : K → Nat) (t : FunnelHashTable K V) (k : K) (v : V) :
    (t.max_inserts ≤ t.num_inserts ∧
      insert hasher t k v = (.error (.runtime_error "Hash table is full."), t)) ∨
    (t.num_inserts < t.max_inserts ∧
      (insert hasher t k v = (.error .undefined_behaviour, t) ∨
       insert hasher t k v =
        (.error (.runtime_error "Special array insertion failed; table is full."), t) ∨
       ∃ t', insert hasher t k v = (.ok true, t') ∧
        t'.num_inserts = t.num_inserts + 1 ∧ t'.max_inserts = t.max_inserts ∧
        t'.capacity = t.capacity ∧ t'.delta = t.delta)) := by
  unfold insert
  by_cases hfull : t.num_inserts ≥ t.max_inserts
  · left
    simp [hfull]
  · right
    refine ⟨by omega, ?_⟩
    simp only [hfull, if_false]
    have hlev := insert_levels_result hasher t k v 0 t.levels.length
    have hspec := insert_special_result hasher t k v (t.special_array.length : Int) 0
      (probe_limit t.capacity).toNat
    cases hl : insert_levels hasher t k v 0 t.levels.length with
    | error e =>
      have := hlev.1 e hl
      subst this
      left; rfl
    | ok r =>
      cases r with
      | some t' => right; right; exact ⟨t', rfl, hlev.2 t' hl⟩
      | none =>
        simp only
        cases hs : insert_special hasher t k v (t.special_array.length : Int) 0
            (probe_limit t.capacity).toNat with
        | error e =>
          have := hspec.1 e hs
          subst this
          left; rfl
        | ok r =>
          cases r with
          | some t' => right; right; exact ⟨t', rfl, hspec.2 t' hs⟩
          | none => right; left; rfl

theorem insert_ok_true (hasher : K → Nat) (t t' : FunnelHashTable K V) (k : K) (v : V)
    (b : Bool) (h : insert hasher t k v = (.ok b, t')) :
    b = true ∧ t.num_inserts < t.max_inserts ∧ t'.num_inserts = t.num_inserts + 1 ∧
      t'.max_inserts = t.max_inserts ∧ t'.capacity = t.capacity ∧ t'.delta = t.delta := by
  rcases insert_cases hasher t k v with ⟨-, h1⟩ | ⟨hlt, h1 | h1 | ⟨t'', h1, h2⟩⟩
  · rw [h1] at h; simp at h
  · rw [h1] at h; simp at h
  · rw [h1] at h; simp at h
  · rw [h1] at h
    simp only [Prod.mk.injEq, Except.ok.injEq] at h
    obtain ⟨hb, ht⟩ := h
    subst ht
    exact ⟨hb.symm, hlt, h2⟩

/-- A call of `insert` that throws leaves the table as it was. -/
theorem insert_error_table (hasher : K → Nat) (t : FunnelHashTable K V) (k : K) (v : V)
    (e : Error) (h : (insert hasher t k v).1 = .error e) : (insert hasher t k v).2 = t := by
  rcases insert_cases hasher t k v with ⟨-, h1⟩ | ⟨-, h1 | h1 | ⟨t'', h1, -⟩⟩
  · rw [h1]
  · rw [h1]
  · rw [h1]
  · rw [h1] at h; simp at h

/-- Every reachable state satisfies the invariant. -/
theorem Inv_of_reachable [Inhabited K] [Inhabited V] (hasher : K → Nat)
    (t : FunnelHashTable K V) (log : List (K × V)) (h : Reachable hasher t log) :
    Inv hasher t log := by
  induction h with
  | fresh capacity delta env t hc => exact Inv_construct hasher capacity delta env t hc
  | step t log key value t' _ hins ih => exact Inv_insert hasher t t' log key value ih hins
  | thrown t log key value what _ herr ih =>
    rw [insert_error_table hasher t key value _ herr]
    exact ih

/-- The constructor returns a table for every `capacity > 0` and every double `delta` with
`0 < delta < 1`. -/
theorem construct_succeeds [Inhabited K] [Inhabited V] (capacity : Int) (delta : ℚ)
    (env : Platform) (hcap : 0 < capacity) (h0 : 0 < delta) (h1 : delta < 1)
    (hd : is_double delta) :
    ∃ t : FunnelHashTable K V, construct capacity delta env = .ok t := by
  have hbeta : static_cast_int (Double.ceil (Double.mul (.of_int 2)
      (env.log2 (Double.div (.of_int 1) (.fin delta))))) ≠ 0 := by
    rcases beta_cases env delta hd h0 h1 with h | h
    · omega
    · rw [h]; norm_num
  unfold construct
  have hc : ¬ capacity ≤ 0 := by omega
  simp only [hc, if_false, h0, h1, and_self, not_true_eq_false, hbeta]
  exact ⟨_, rfl⟩

theorem last_value_append_of_not_mem (l l2 : List (K × V)) (k : K)
    (h : k ∉ l.map Prod.fst) : last_value (l ++ l2) k = last_value l2 k := by
  induction l with
  | nil => rfl
  | cons kv l ih =>
    obtain ⟨k', v'⟩ := kv
    simp only [List.map_cons, List.mem_cons, not_or] at h
    have hk : ¬ k' = k := fun hh => h.1 hh.symm
    simp only [List.cons_append, last_value, hk, if_false]
    exact ih h.2

theorem last_value_reverse (kvs log : List (K × V)) (k : K) (v : V) (hmem : (k, v) ∈ kvs)
    (hnd : (kvs.map Prod.fst).Nodup) : last_value (kvs.reverse ++ log) k = some v := by
  induction kvs generalizing log with
  | nil => cases hmem
  | cons kv rest ih =>
    obtain ⟨k0, v0⟩ := kv
    simp only [List.map_cons, List.nodup_cons] at hnd
    simp only [List.reverse_cons, List.append_assoc, List.singleton_append]
    simp only [List.mem_cons, Prod.mk.injEq] at hmem
    rcases hmem with ⟨rfl, rfl⟩ | hmem
    · rw [last_value_append_of_not_mem _ _ _ (by simpa using hnd.1)]
      simp [last_value]
    · exact ih _ hmem hnd.2

theorem reachable_insert_seq [Inhabited K] [Inhabited V] (hasher : K → Nat)
    (kvs : List (K × V)) (t t' : FunnelHashTable K V) (log : List (K × V))
    (hreach : Reachable hasher t log) (h : insert_seq hasher t kvs = (.ok true, t')) :
    Reachable hasher t' (kvs.reverse ++ log) ∧ t'.max_inserts = t.max_inserts := by
  induction kvs generalizing t log with
  | nil =>
    simp only [insert_seq, Prod.mk.injEq, true_and] at h
    subst h
    exact ⟨by simpa using hreach, rfl⟩
  | cons kv rest ih =>
    obtain ⟨k, v⟩ := kv
    simp only [insert_seq] at h
    cases hins : insert hasher t k v with
    | mk r t1 =>
      cases r with
      | error e => simp [hins] at h
      | ok b =>
        simp only [hins] at h
        obtain ⟨hb, -, -, hmax, -, -⟩ := insert_ok_true hasher t t1 k v b hins
        subst hb
        obtain ⟨hr, hm⟩ := ih t1 ((k, v) :: log) (Reachable.step t log k v t1 hreach hins) h
        refine ⟨?_, by rw [hm, hmax]⟩
        simpa [List.reverse_cons, List.append_assoc] using hr

/-- In a state that satisfies the invariant, `search` finds the last value inserted. -/
theorem search_of_inv (hasher : K → Nat) (t : FunnelHashTable K V) (log : List (K × V))
    (hinv : Inv hasher t log) (k : K) (v : V) (hlast : last_value log k = some v) :
    search hasher t k = .ok (some v) := by
  obtain ⟨p, hp⟩ := hinv.stored k v hlast
  have hfit := hinv.target p ⟨k, v, true⟩ hp rfl
  rw [search_eq hasher t hinv.wf]
  exact first_hit_of_first_fit (slot t) k p ⟨k, v, true⟩ hp rfl _ hfit

/-- In a state that satisfies the invariant, a value returned by `search` is the last value
inserted for the key: no key is found that was not inserted. -/
theorem search_sound (hasher : K → Nat) (t : FunnelHashTable K V) (log : List (K × V))
    (hinv : Inv hasher t log) (k : K) (v : V) (h : search hasher t k = .ok (some v)) :
    last_value log k = some v := by
  rw [search_eq hasher t hinv.wf] at h
  obtain ⟨p, e, -, hp, hocc, hkey, hval⟩ := first_hit_value _ _ _ _ h
  have := hinv.stored_value p e hp hocc
  rw [hkey, hval] at this
  exact this

theorem last_value_of_mem (log : List (K × V)) (k : K) (v : V) (h : (k, v) ∈ log) :
    ∃ v', last_value log k = some v' := by
  induction log with
  | nil => cases h
  | cons kv log ih =>
    obtain ⟨k', v'⟩ := kv
    by_cases hk : k' = k
    · exact ⟨v', by simp [last_value, hk]⟩
    · simp only [List.mem_cons, Prod.mk.injEq] at h
      rcases h with h | h
      · exact absurd h.1.symm hk
      · obtain ⟨w, hw⟩ := ih h
        exact ⟨w, by simp [last_value, hk, hw]⟩

theorem demo1_reachable : Reachable id demo1 [(1, 10)] :=
  Reachable.step demo0 [] 1 10 demo1
    (Reachable.fresh 8 (1 / 2) ref_platform demo0 (by decide!)) (by decide!)

theorem demo2_reachable : Reachable id demo2 [(2, 20), (1, 10)] :=
  Reachable.step demo1 _ 2 20 demo2 demo1_reachable (by decide!)

theorem demo3_reachable : Reachable id demo3 [(1, 11), (2, 20), (1, 10)] :=
  Reachable.step demo2 _ 1 11 demo3 demo2_reachable (by decide!)

theorem demo4_reachable : Reachable id demo4 [(3, 30), (1, 11), (2, 20), (1, 10)] :=
  Reachable.step demo3 _ 3 30 demo4 demo3_reachable (by decide!)

theorem mem_bucket_probes_iff (i : Nat) (idx : Int) (n : Nat) (p : Pos) :
    p ∈ bucket_probes i idx n ↔ ∃ o : Nat, o < n ∧ p = .level i (idx + o) := by
  induction n generalizing idx with
  | zero => simp [bucket_probes]
  | succ n ih =>
    simp only [bucket_probes, List.mem_cons, ih]
    constructor
    · rintro (h | ⟨o, ho, h⟩)
      · exact ⟨0, by omega, by simpa using h⟩
      · exact ⟨o + 1, by omega, by rw [h]; congr 1; push_cast; ring⟩
    · rintro ⟨o, ho, h⟩
      cases o with
      | zero => left; simpa using h
      | succ o => right; exact ⟨o, by omega, by rw [h]; congr 1; push_cast; ring⟩

theorem hash_nonneg (hasher : K → Nat) (key : K) (salt : Int) : 0 ≤ _hash hasher key salt := by
  unfold _hash
  exact Int.ofNat_nonneg _

/-- The bucket index of a key is in `[0, c)` and every slot of the bucket is inside a
level of `c * beta` entries. -/
theorem bucket_in_bounds {α : Type} (level : List α) (h c beta : Int) (hh : 0 ≤ h)
    (hc : 1 ≤ c) (hbeta : 0 ≤ beta) (hlen : (level.length : Int) = c * beta) :
    0 ≤ Int.tmod h c ∧ Int.tmod h c < c ∧
    ∀ idx, Int.tmod h c * beta ≤ idx → idx < Int.tmod h c * beta + beta →
      (at? level idx).isSome := by
  have h0 : 0 ≤ Int.tmod h c := Int.tmod_nonneg c hh
  have h1 : Int.tmod h c < c := Int.tmod_lt_of_pos h (by omega)
  refine ⟨h0, h1, ?_⟩
  intro idx hlo hhi
  rw [at?_isSome]
  have hstart : 0 ≤ Int.tmod h c * beta := mul_nonneg h0 hbeta
  have hend : Int.tmod h c * beta + beta ≤ c * beta := by
    have : (Int.tmod h c + 1) * beta ≤ c * beta :=
      Int.mul_le_mul_of_nonneg_right (by omega) hbeta
    linarith
  constructor
  · omega
  · have : idx < (level.length : Int) := by rw [hlen]; omega
    omega

theorem level_probes_slot (hasher : K → Nat) (t : FunnelHashTable K V) (hwf : WF t) (k : K)
    (i n : Nat) (hin : i + n = t.levels.length) :
    ∀ p ∈ level_probes hasher t.level_bucket_counts t.level_salts t.beta k i n,
      (slot t p).isSome := by
  induction n generalizing i with
  | zero => simp [level_probes]
  | succ n ih =>
    have hi : i < t.levels.length := by omega
    have hic : i < t.level_bucket_counts.length := by rw [hwf.counts_len]; exact hi
    have his : i < t.level_salts.length := by rw [hwf.salts_len]; exact hi
    obtain ⟨level, hl⟩ : ∃ level, t.levels[i]? = some level :=
      ⟨t.levels[i], List.getElem?_eq_getElem hi⟩
    obtain ⟨c, hc⟩ : ∃ c, t.level_bucket_counts[i]? = some c :=
      ⟨t.level_bucket_counts[i], List.getElem?_eq_getElem hic⟩
    obtain ⟨s, hs⟩ : ∃ s, t.level_salts[i]? = some s :=
      ⟨t.level_salts[i], List.getElem?_eq_getElem his⟩
    obtain ⟨hc1, hlen⟩ := hwf.level_len i level c hl hc
    have hbeta : 0 ≤ t.beta := beta_nonneg_of_level c t.beta level.length hc1 hlen
    intro p hp
    simp only [level_probes, hc, hs, List.mem_append] at hp
    rcases hp with hp | hp
    · obtain ⟨o, ho, rfl⟩ := (mem_bucket_probes_iff _ _ _ _).1 hp
      simp only [slot, hl, Option.some_bind]
      refine (bucket_in_bounds level _ c t.beta (hash_nonneg hasher k s) hc1 hbeta
        hlen).2.2 _ (by omega) ?_
      have : (o : Int) < t.beta := by omega
      omega
    · exact ih (i + 1) (by omega) p hp

theorem first_fit_error (s : Pos → Option (Entry K V)) (k : K) (ps : List Pos) (e : Error)
    (h : first_fit s k ps = .error e) :
    e = .undefined_behaviour ∧ ∃ p ∈ ps, s p = none := by
  induction ps with
  | nil => simp [first_fit] at h
  | cons q ps ih =>
    simp only [first_fit] at h
    cases hq : s q with
    | none =>
      simp only [hq, Except.error.injEq] at h
      exact ⟨h.symm, q, List.mem_cons_self _ _, hq⟩
    | some e' =>
      simp only [hq] at h
      split at h
      · cases h
      · obtain ⟨he, p, hp, hnone⟩ := ih h
        exact ⟨he, p, List.mem_cons_of_mem _ hp, hnone⟩

theorem first_hit_error (s : Pos → Option (Entry K V)) (k : K) (ps : List Pos) (e : Error)
    (h : first_hit s k ps = .error e) : ∃ p ∈ ps, s p = none := by
  induction ps with
  | nil => simp [first_hit] at h
  | cons q ps ih =>
    simp only [first_hit] at h
    cases hq : s q with
    | none => exact ⟨q, List.mem_cons_self _ _, hq⟩
    | some e' =>
      simp only [hq] at h
      split at h
      · cases h
      · obtain ⟨p, hp, hnone⟩ := ih h
        exact ⟨p, List.mem_cons_of_mem _ hp, hnone⟩

/-- On a well-formed table the level loops of `insert` and `search` read no slot outside
its level. -/
theorem levels_no_error (hasher : K → Nat) (t : FunnelHashTable K V) (hwf : WF t) (k : K)
    (v : V) (e : Error) :
    insert_levels hasher t k v 0 t.levels.length ≠ .error e ∧
    search_levels hasher t k 0 t.levels.length ≠ .error e := by
  have hslots := level_probes_slot hasher t hwf k 0 t.levels.length (by simp)
  constructor
  · intro h
    rw [insert_levels_eq hasher t hwf k v 0 _ (by simp)] at h
    cases hff : first_fit (slot t) k
        (level_probes hasher t.level_bucket_counts t.level_salts t.beta k 0 t.levels.length) with
    | error e' =>
      obtain ⟨-, p, hp, hnone⟩ := first_fit_error _ _ _ _ hff
      have := hslots p hp
      simp [hnone] at this
    | ok r =>
      rw [hff] at h
      cases r <;> simp at h
  · intro h
    rw [search_levels_eq hasher t hwf k 0 _ (by simp)] at h
    obtain ⟨p, hp, hnone⟩ := first_hit_error _ _ _ _ h
    have := hslots p hp
    simp [hnone] at this

theorem hash_eq_mod (hasher : K → Nat) (key : K) (salt : Int) (h0 : 0 ≤ salt)
    (h1 : salt < 2 ^ 31) :
    _hash hasher key salt = (((hasher key % 2 ^ 64) ^^^ salt.toNat) % 2 ^ 31 : Nat) := by
  unfold _hash
  have hs : (salt % 2 ^ 64).toNat = salt.toNat := by
    rw [Int.emod_eq_of_lt h0 (by omega)]
  rw [hs]
  have : (0x7FFFFFFF : Nat) = 2 ^ 31 - 1 := by norm_num
  rw [this, Nat.and_pow_two_sub_one_eq_mod]
  rfl

theorem first_fit_split (s : Pos → Option (Entry K V)) (k : K) (ps : List Pos) (q : Pos)
    (h : first_fit s k ps = .ok (some q)) :
    ∃ pre post, ps = pre ++ q :: post ∧
      ∀ r ∈ pre, ∃ e, s r = some e ∧ e.occupied = true ∧ e.key ≠ k := by
  induction ps with
  | nil => simp [first_fit] at h
  | cons p ps ih =>
    simp only [first_fit] at h
    cases hp : s p with
    | none => simp [hp] at h
    | some e =>
      simp only [hp] at h
      by_cases hfit : e.occupied = false ∨ e.key = k
      · simp only [hfit, if_true, Except.ok.injEq, Option.some.injEq] at h
        subst h
        exact ⟨[], ps, rfl, by simp⟩
      · simp only [hfit, if_false] at h
        obtain ⟨pre, post, hps, hpre⟩ := ih h
        refine ⟨p :: pre, post, by simp [hps], ?_⟩
        intro r hr
        simp only [List.mem_cons] at hr
        rcases hr with rfl | hr
        · simp only [not_or, Bool.not_eq_false] at hfit
          exact ⟨e, hp, hfit.1, hfit.2⟩
        · exact hpre r hr

theorem first_fit_none_iff (s : Pos → Option (Entry K V)) (k : K) (ps : List Pos) :
    first_fit s k ps = .ok none ↔
      ∀ r ∈ ps, ∃ e, s r = some e ∧ e.occupied = true ∧ e.key ≠ k := by
  induction ps with
  | nil => simp [first_fit]
  | cons p ps ih =>
    simp only [first_fit, List.mem_cons, forall_eq_or_imp]
    cases hp : s p with
    | none => simp
    | some e =>
      by_cases hfit : e.occupied = false ∨ e.key = k
      · simp only [hfit, if_true, Except.ok.injEq, false_iff, not_and, reduceCtorEq]
        rintro ⟨e', he', ho, hk⟩ -
        simp only [Option.some.injEq] at he'
        subst he'
        rcases hfit with h1 | h1
        · rw [ho] at h1; cases h1
        · exact absurd h1 hk
      · simp only [hfit, if_false, ih]
        simp only [not_or, Bool.not_eq_false] at hfit
        constructor
        · intro h
          exact ⟨⟨e, rfl, hfit.1, hfit.2⟩, h⟩
        · intro h
          exact h.2

theorem place_frame (t : FunnelHashTable K V) (k : K) (v : V) (q : Pos)
    (hq : (slot t q).isSome) :
    (place t k v q).capacity = t.capacity ∧ (place t k v q).delta = t.delta ∧
    (place t k v q).max_inserts = t.max_inserts ∧ (place t k v q).alpha = t.alpha ∧
    (place t k v q).beta = t.beta ∧ (place t k v q).special_size = t.special_size ∧
    (place t k v q).primary_size = t.primary_size ∧
    (place t k v q).levels.map List.length = t.levels.map List.length ∧
    (place t k v q).special_array.length = t.special_array.length ∧
    (place t k v q).level_bucket_counts = t.level_bucket_counts ∧
    (place t k v q).level_salts = t.level_salts ∧
    (place t k v q).special_salt = t.special_salt ∧
    (place t k v q).num_inserts = t.num_inserts + 1 ∧
    (place t k v q).special_occupancy =
      t.special_occupancy + q.special_growth := by
  cases q with
  | special idx => simp [place, setAt, Pos.special_growth]
  | level i idx =>
    simp only [place, Pos.special_growth, add_zero, and_self, and_true, true_and]
    cases hl : t.levels[i]? with
    | none => simp [slot, hl] at hq
    | some level =>
      apply List.ext_getElem?
      intro j
      simp only [List.getElem?_map, List.getElem?_set, List.getD_eq_getElem?_getD, hl,
        Option.getD_some, setAt]
      by_cases hij : i = j
      · subst hij
        simp only [if_true]
        split
        · simp [hl]
        · next hlt =>
          rw [List.getElem?_eq_none (by omega)] at hl
          cases hl
      · simp [hij]

/-- The index of a special probe when `seed + j` stays inside the range of `int`. -/
theorem special_index_no_overflow (seed j size : Int) (hseed : 0 ≤ seed) (hj : 0 ≤ j)
    (hsum : seed + j < 2 ^ 31) (hsize : 0 < size) :
    Int.tmod (wrap_int (seed + j)) size = ((seed % size) + j) % size ∧
    0 ≤ Int.tmod (wrap_int (seed + j)) size ∧ Int.tmod (wrap_int (seed + j)) size < size := by
  have hw : wrap_int (seed + j) = seed + j := by
    unfold wrap_int
    rw [Int.emod_eq_of_lt (by omega) (by omega)]
    omega
  rw [hw, Int.tmod_eq_emod (by omega) (by omega), Int.emod_add_emod]
  exact ⟨rfl, Int.emod_nonneg _ (by omega), Int.emod_lt_of_pos _ hsize⟩

theorem contains_true_iff (hasher : K → Nat) (t : FunnelHashTable K V) (k : K) :
    (contains hasher t k = .ok true ↔ ∃ v, search hasher t k = .ok (some v)) ∧
    (contains hasher t k = .ok false ↔ search hasher t k = .ok none) ∧
    (∀ e, contains hasher t k = .error e ↔ search hasher t k = .error e) := by
  unfold contains
  cases hs : search hasher t k with
  | error e => simp [Except.map]
  | ok r => cases r <;> simp [Except.map]

/-- The fields of a constructed table, as the constructor computes them. -/
theorem sum_length_replicate {α : Type} (x : α) (beta : Int) (hbeta : 0 ≤ beta)
    (counts : List Int) (hpos : ∀ c ∈ counts, 1 ≤ c) :
    (((counts.map (fun a_i => List.replicate (a_i * beta).toNat x)).map List.length).sum : Int)
      = (counts.map (fun c => c * beta)).sum := by
  induction counts with
  | nil => simp
  | cons c counts ih =>
    have hc : 1 ≤ c := hpos c (List.mem_cons_self _ _)
    have hnn : 0 ≤ c * beta := mul_nonneg (by omega) hbeta
    simp only [List.map_cons, List.sum_cons, List.length_replicate, Nat.cast_add,
      Int.toNat_of_nonneg hnn]
    rw [ih (fun c' hc' => hpos c' (List.mem_cons_of_mem _ hc'))]

theorem sum_map_mul (counts : List Int) (beta : Int) :
    (counts.map (fun c => c * beta)).sum = counts.sum * beta := by
  induction counts with
  | nil => simp
  | cons c counts ih => simp [ih, add_mul]

/-- The level budget of a constructed table, for a capacity that is an `int` and a `delta`
that is a double: `beta` is at least 1 or `INT_MIN`, and the budget `primary_size / beta`
is not negative. -/
theorem construct_budget [Inhabited K] [Inhabited V] (capacity : Int) (delta : ℚ)
    (env : Platform) (t : FunnelHashTable K V) (h : construct capacity delta env = .ok t)
    (hb : capacity < 2 ^ 31) (hd : is_double delta) :
    (1 ≤ t.beta ∨ t.beta = -2 ^ 31) ∧ 0 ≤ Int.tdiv t.primary_size t.beta ∧
    t.level_bucket_counts.sum ≤ Int.tdiv t.primary_size t.beta ∧
    (t.level_bucket_counts.length : Int) ≤ max t.alpha 0 := by
  obtain ⟨hcap, h0, h1, -, -, -, -, -, -⟩ := construct_ok capacity delta env t h
  obtain ⟨hs1, hsc, hp0, hsum⟩ := construct_partition capacity delta env t h
  obtain ⟨-, hbeta, -, -, -, ⟨a1, hcounts⟩, -, -, -, -⟩ := construct_fields capacity delta env t h
  have hcases : 1 ≤ t.beta ∨ t.beta = -2 ^ 31 := by
    rw [hbeta]
    exact beta_cases env delta hd h0 h1
  have htb : 0 ≤ Int.tdiv t.primary_size t.beta := by
    rcases hcases with hc | hc
    · exact Int.tdiv_nonneg hp0 (by omega)
    · rw [hc, Int.tdiv_neg, Int.tdiv_eq_zero_of_lt hp0 (by omega)]
      norm_num
  refine ⟨hcases, htb, ?_, ?_⟩
  · rw [hcounts]
    exact level_counts_sum_le _ _ _ _ _ htb
  · rw [hcounts]
    have := level_counts_length_le env a1 t.alpha.toNat 0 (Int.tdiv t.primary_size t.beta)
    have h2 : (t.alpha.toNat : Int) = max t.alpha 0 := Int.toNat_eq_max t.alpha
    omega

/-- The slots of a constructed table: the levels hold `bucket_count[i] * beta` entries each
and the special array `special_size` entries, at most `capacity` in all. -/
theorem construct_slots [Inhabited K] [Inhabited V] (capacity : Int) (delta : ℚ)
    (env : Platform) (t : FunnelHashTable K V) (h : construct capacity delta env = .ok t) :
    t.levels.map (fun level => (level.length : Int))
      = t.level_bucket_counts.map (fun c => c * t.beta) ∧
    (t.special_array.length : Int) = t.special_size ∧
    (total_slots t : Int) = t.level_bucket_counts.sum * t.beta + t.special_size ∧
    t.level_bucket_counts.sum * t.beta ≤ t.primary_size ∧
    (total_slots t : Int) ≤ capacity := by
  obtain ⟨hspec, -, hp0, hsum⟩ := construct_partition capacity delta env t h
  obtain ⟨-, -, -, -, -, ⟨a1, hcounts⟩, hlev, -, hsa, -⟩ := construct_fields capacity delta env t h
  have hwf := construct_wf capacity delta env t h
  have hslen : (t.special_array.length : Int) = t.special_size := by
    rw [hsa, List.length_replicate]
    exact Int.toNat_of_nonneg (by omega)
  have hlens : t.levels.map (fun level => (level.length : Int))
      = t.level_bucket_counts.map (fun c => c * t.beta) := by
    apply List.ext_getElem?
    intro i
    simp only [List.getElem?_map]
    cases hl : t.levels[i]? with
    | none =>
      have : t.level_bucket_counts[i]? = none := by
        rw [List.getElem?_eq_none_iff] at hl ⊢
        rw [hwf.counts_len]
        exact hl
      simp [this]
    | some level =>
      have hil : i < t.levels.length := by
        by_contra hcon
        rw [List.getElem?_eq_none (by omega)] at hl
        cases hl
      have hic : i < t.level_bucket_counts.length := by rw [hwf.counts_len]; exact hil
      have hc : t.level_bucket_counts[i]? = some t.level_bucket_counts[i] :=
        List.getElem?_eq_getElem hic
      simp only [hc, Option.map_some', Option.some.injEq]
      exact (hwf.level_len i level _ hl hc).2
  have hmul : t.level_bucket_counts.sum * t.beta ≤ t.primary_size := by
    by_cases hne : t.level_bucket_counts = []
    · rw [hne]; simpa using hp0
    · have hbeta := construct_beta_pos capacity delta env t h hne
      have htb : 0 ≤ Int.tdiv t.primary_size t.beta := Int.tdiv_nonneg hp0 (by omega)
      have hcsum : t.level_bucket_counts.sum ≤ Int.tdiv t.primary_size t.beta := by
        rw [hcounts]
        exact level_counts_sum_le _ _ _ _ _ htb
      have htbmul : Int.tdiv t.primary_size t.beta * t.beta ≤ t.primary_size := by
        rw [Int.tdiv_eq_ediv hp0 (by omega)]
        exact Int.ediv_mul_le _ (by omega)
      exact le_trans (Int.mul_le_mul_of_nonneg_right hcsum (by omega)) htbmul
  have hlevsum : (((t.levels.map List.length).sum : Nat) : Int)
      = t.level_bucket_counts.sum * t.beta := by
    rw [← sum_map_mul, ← hlens]
    clear hlens hlev
    induction t.levels with
    | nil => simp
    | cons l ls ih => simp [ih]
  refine ⟨hlens, hslen, ?_, hmul, ?_⟩
  · unfold total_slots
    rw [Nat.cast_add, hlevsum, hslen]
  · unfold total_slots
    rw [Nat.cast_add, hlevsum, hslen]
    omega

theorem sum_map_set {α : Type} (f : α → Nat) (l : List α) (i : Nat) (x : α)
    (h : i < l.length) : ((l.set i x).map f).sum + f l[i] = (l.map f).sum + f x := by
  induction l generalizing i with
  | nil => simp at h
  | cons y l ih =>
    cases i with
    | zero => simp; omega
    | succ i =>
      simp only [List.length_cons, Nat.add_lt_add_iff_right] at h
      simp only [List.set_cons_succ, List.map_cons, List.sum_cons, List.getElem_cons_succ]
      have := ih i h
      omega

theorem countP_setAt (l : List (Entry K V)) (idx : Int) (e0 : Entry K V) (k : K) (v : V)
    (h : at? l idx = some e0) :
    (setAt l idx ⟨k, v, true⟩).countP (fun e => e.occupied)
      = l.countP (fun e => e.occupied) + (if e0.occupied = true then 0 else 1) := by
  have hsome : (at? l idx).isSome := by simp [h]
  obtain ⟨h0, h1⟩ := (at?_isSome l idx).1 hsome
  have hget : l[idx.toNat] = e0 := by
    unfold at? at h
    have hneg : ¬ idx < 0 := by omega
    simp only [hneg, if_false] at h
    rw [List.getElem?_eq_getElem h1] at h
    simpa using h
  unfold setAt
  rw [List.countP_set _ _ _ _ h1, hget]
  have hle := List.boole_getElem_le_countP (fun e : Entry K V => e.occupied) l idx.toNat h1
  rw [hget] at hle
  by_cases ho : e0.occupied = true
  · simp only [ho, if_true] at hle ⊢
    omega
  · simp only [ho, if_false] at hle ⊢
    simp

/-- A write by `insert` adds one occupied slot when the slot was empty and none when it
held the key. -/
theorem occupied_count_place (t : FunnelHashTable K V) (k : K) (v : V) (q : Pos)
    (e0 : Entry K V) (hq : slot t q = some e0) :
    occupied_count (place t k v q)
      = occupied_count t + (if e0.occupied = true then 0 else 1) := by
  cases q with
  | special idx =>
    simp only [slot] at hq
    simp only [occupied_count, place, countP_setAt _ _ _ _ _ hq]
    omega
  | level i idx =>
    simp only [slot] at hq
    cases hl : t.levels[i]? with
    | none => simp [hl] at hq
    | some level =>
      simp only [hl, Option.some_bind] at hq
      have hi : i < t.levels.length := by
        by_contra hcon
        rw [List.getElem?_eq_none (by omega)] at hl
        cases hl
      have hlevel : t.levels[i] = level := by
        rw [List.getElem?_eq_getElem hi] at hl
        simpa using hl
      have hsum := sum_map_set (fun level : List (Entry K V) =>
        level.countP (fun e => e.occupied)) t.levels i (setAt level idx ⟨k, v, true⟩) hi
      simp only [hlevel, countP_setAt _ _ _ _ _ hq] at hsum
      simp only [occupied_count, place, List.getD_eq_getElem?_getD, hl, Option.getD_some]
      omega

theorem occupied_count_zero (t : FunnelHashTable K V)
    (hempty : ∀ (p : Pos) (e : Entry K V), slot t p = some e → e.occupied = false) :
    occupied_count t = 0 := by
  unfold occupied_count
  have hspec : t.special_array.countP (fun e => e.occupied) = 0 := by
    rw [List.countP_eq_zero]
    intro e he
    obtain ⟨n, hn⟩ := List.getElem?_of_mem he
    have := hempty (.special n) e (by simp [slot, at?, hn])
    simp [this]
  have hlev : (t.levels.map (fun level => level.countP (fun e => e.occupied))).sum = 0 := by
    apply List.sum_eq_zero
    intro x hx
    simp only [List.mem_map] at hx
    obtain ⟨level, hlevel, rfl⟩ := hx
    rw [List.countP_eq_zero]
    intro e he
    obtain ⟨i, hi⟩ := List.getElem?_of_mem hlevel
    obtain ⟨n, hn⟩ := List.getElem?_of_mem he
    have := hempty (.level i n) e (by simp [slot, at?, hi, hn])
    simp [this]
  rw [hspec, hlev]

theorem mem_keys_of_last_value (log : List (K × V)) (k : K) (v : V)
    (h : last_value log k = some v) : k ∈ log.map Prod.fst := by
  induction log with
  | nil => simp [last_value] at h
  | cons kv log ih =>
    obtain ⟨k', v'⟩ := kv
    simp only [last_value] at h
    by_cases hk : k' = k
    · simp [hk]
    · simp only [hk, if_false] at h
      simp [ih h]

theorem last_value_of_mem_keys (log : List (K × V)) (k : K) (h : k ∈ log.map Prod.fst) :
    ∃ v, last_value log k = some v := by
  simp only [List.mem_map] at h
  obtain ⟨⟨k', v'⟩, hmem, rfl⟩ := h
  exact last_value_of_mem log k' v' hmem

/-- The keys held by occupied slots are the keys of the log. -/
theorem stored_iff_logged (hasher : K → Nat) (t : FunnelHashTable K V) (log : List (K × V))
    (hinv : Inv hasher t log) (k : K) :
    (∃ p e, slot t p = some e ∧ e.occupied = true ∧ e.key = k) ↔ k ∈ log.map Prod.fst := by
  constructor
  · rintro ⟨p, e, hp, ho, rfl⟩
    exact mem_keys_of_last_value log _ _ (hinv.stored_value p e hp ho)
  · intro h
    obtain ⟨v, hv⟩ := last_value_of_mem_keys log k h
    obtain ⟨p, hp⟩ := hinv.stored k v hv
    exact ⟨p, _, hp, rfl, rfl⟩

/-- The invariant of the occupancy counters in the reachable states. -/
theorem occupancy_of_reachable [Inhabited K] [Inhabited V] (hasher : K → Nat)
    (t : FunnelHashTable K V) (log : List (K × V)) (h : Reachable hasher t log) :
    occupied_count t = distinct_keys log ∧
    0 ≤ t.special_occupancy ∧ t.special_occupancy ≤ t.num_inserts := by
  induction h with
  | fresh capacity delta env t hc =>
    obtain ⟨-, -, -, -, -, hn, hso, -, hempty⟩ := construct_ok capacity delta env t hc
    refine ⟨?_, by omega, by omega⟩
    rw [occupied_count_zero t hempty]
    simp [distinct_keys]
  | thrown t log key value what _ herr ih =>
    rw [insert_error_table hasher t key value _ herr]
    exact ih
  | step t log key value t' hreach hins ih =>
    have hinv := Inv_of_reachable hasher t log hreach
    obtain ⟨-, -, q, hq, rfl⟩ := insert_ok hasher t t' hinv.wf key value true hins
    obtain ⟨e0, he0, hfit⟩ := first_fit_slot _ _ _ _ hq
    have hsome : (slot t q).isSome := by simp [he0]
    obtain ⟨-, -, -, -, -, -, -, -, -, -, -, -, hnum, hso⟩ := place_frame t key value q hsome
    refine ⟨?_, ?_, ?_⟩
    · rw [occupied_count_place t key value q e0 he0, ih.1]
      simp only [distinct_keys, List.map_cons]
      by_cases ho : e0.occupied = true
      · have hkey : e0.key = key := by
          rcases hfit with h1 | h1
          · rw [ho] at h1; cases h1
          · exact h1
        have hmem : key ∈ log.map Prod.fst := by
          rw [← hkey]
          exact mem_keys_of_last_value log _ _ (hinv.stored_value q e0 he0 ho)
        simp [ho, List.dedup_cons_of_mem hmem]
      · have hnot : key ∉ log.map Prod.fst := by
          intro hmem
          obtain ⟨v', hv'⟩ := last_value_of_mem_keys log key hmem
          obtain ⟨p, hp⟩ := hinv.stored key v' hv'
          have := hinv.target p _ hp rfl
          simp only at this
          rw [hq] at this
          simp only [Except.ok.injEq, Option.some.injEq] at this
          subst this
          rw [he0] at hp
          simp only [Option.some.injEq] at hp
          subst hp
          exact ho rfl
        simp [ho, List.dedup_cons_of_not_mem hnot]
    · rw [hso]
      have : 0 ≤ q.special_growth := by cases q <;> simp [Pos.special_growth]
      omega
    · rw [hso, hnum]
      have : q.special_growth ≤ 1 := by cases q <;> simp [Pos.special_growth]
      omega

theorem dedup_length_eq_iff {α : Type} [DecidableEq α] (l : List α) :
    l.dedup.length = l.length ↔ l.Nodup := by
  constructor
  · intro h
    have := (List.dedup_sublist l).eq_of_length h
    exact List.dedup_eq_self.1 this
  · intro h
    rw [List.dedup_eq_self.2 h]

/-- In a reachable state with room under the ceiling, `insert` throws the special-array
error exactly when every probed slot exists and is occupied by another key; it has
undefined behaviour only when a special probe falls outside the special array; in the
remaining case it returns `true`. -/
theorem insert_raises_iff [Inhabited K] [Inhabited V] (hasher : K → Nat)
    (t : FunnelHashTable K V) (log : List (K × V)) (k : K) (v : V)
    (hreach : Reachable hasher t log) (hlt : t.num_inserts < t.max_inserts) :
    (insert hasher t k v =
        (.error (.runtime_error "Special array insertion failed; table is full."), t) ↔
      ∀ r ∈ probes hasher t k, ∃ e, slot t r = some e ∧ e.occupied = true ∧ e.key ≠ k) ∧
    ((insert hasher t k v).1 = .error .undefined_behaviour →
      ∃ p ∈ special_probes (_hash_special hasher t k) (t.special_array.length : Int) 0
        (probe_limit t.capacity).toNat, slot t p = none) ∧
    ((∀ p ∈ probes hasher t k, (slot t p).isSome) →
      (¬ ∀ r ∈ probes hasher t k, ∃ e, slot t r = some e ∧ e.occupied = true ∧ e.key ≠ k) →
      ∃ t', insert hasher t k v = (.ok true, t')) := by
  have hinv := Inv_of_reachable hasher t log hreach
  have hnf : ¬ t.num_inserts ≥ t.max_inserts := by omega
  rw [insert_eq hasher t hinv.wf k v]
  simp only [hnf, if_false]
  rw [← first_fit_none_iff]
  cases hff : first_fit (slot t) k (probes hasher t k) with
  | error e =>
    obtain ⟨he, -⟩ := first_fit_error _ _ _ _ hff
    subst he
    refine ⟨by simp, ?_, ?_⟩
    · intro _
      obtain ⟨-, p, hp, hnone⟩ := first_fit_error _ _ _ _ hff
      simp only [probes, List.mem_append] at hp
      rcases hp with hp | hp
      · have := level_probes_slot hasher t hinv.wf k 0 t.levels.length (by simp) p hp
        simp [hnone] at this
      · exact ⟨p, hp, hnone⟩
    · intro hall _
      obtain ⟨-, p, hp, hnone⟩ := first_fit_error _ _ _ _ hff
      have := hall p hp
      simp [hnone] at this
  | ok r =>
    cases r with
    | none => exact ⟨by simp, by simp, fun _ h => absurd rfl h⟩
    | some q => exact ⟨by simp, by simp, fun _ _ => ⟨_, rfl⟩⟩

theorem occupied_le_total (t : FunnelHashTable K V) : occupied_count t ≤ total_slots t := by
  unfold occupied_count total_slots
  apply Nat.add_le_add
  · induction t.levels with
    | nil => simp
    | cons level levels ih =>
      simp only [List.map_cons, List.sum_cons]
      exact Nat.add_le_add (List.countP_le_length _) ih
  · exact List.countP_le_length _

/-- In a reachable state `contains` is `true` for the keys of the successful inserts and is
not `true` for any other key. -/
theorem contains_of_reachable [Inhabited K] [Inhabited V] (hasher : K → Nat)
    (t : FunnelHashTable K V) (log : List (K × V)) (k : K)
    (hreach : Reachable hasher t log) :
    (k ∈ log.map Prod.fst → contains hasher t k = .ok true) ∧
    (k ∉ log.map Prod.fst → contains hasher t k ≠ .ok true) := by
  have hinv := Inv_of_reachable hasher t log hreach
  constructor
  · intro hmem
    obtain ⟨v, hv⟩ := last_value_of_mem_keys log k hmem
    exact (contains_true_iff hasher t k).1.2 ⟨v, search_of_inv hasher t log hinv k v hv⟩
  · intro hnot hc
    obtain ⟨v, hv⟩ := (contains_true_iff hasher t k).1.1 hc
    exact hnot (mem_keys_of_last_value log k v (search_sound hasher t log hinv k v hv))

theorem tenth_is_double : is_double tenth := by
  unfold is_double
  decide!

/-- C1, round trip: in every table state reachable from a freshly constructed table (any
capacity and delta the constructor accepts, any salts, any key-hash function) by successful
calls of `insert`, `search(k)` returns exactly the value `v` of the most recent successful
`insert(k, v)`; so it returns `v` right after that insert and keeps returning it while keys
other than `k` are inserted. -/
theorem round_trip [Inhabited K] [Inhabited V] (hasher : K → Nat) (t : FunnelHashTable K V)
    (log : List (K × V)) (k : K) (v : V) (hreach : Reachable hasher t log)
    (hlast : last_value log k = some v) : search hasher t k = .ok (some v) :=
  search_of_inv hasher t log (Inv_of_reachable hasher t log hreach) k v hlast

/-- Witness of C1: after `insert(1, 10)`, `insert(2, 20)`, `insert(1, 11)` on the table of
capacity 8 and delta 0.5, `search(1)` returns 11. -/
theorem round_trip_witness :
    Reachable id demo3 [(1, 11), (2, 20), (1, 10)] ∧
    last_value [(1, 11), (2, 20), (1, 10)] 1 = some 11 ∧
    search id demo3 1 = .ok (some 11) :=
  ⟨demo3_reachable, by decide,
    round_trip id demo3 [(1, 11), (2, 20), (1, 10)] 1 11 demo3_reachable (by decide)⟩

/-- C2, evaluated at the failing input: on the fresh table of capacity 100 and delta 0.1
(special salt 0), `search` of a never inserted key whose hash is `0x7FFFFFFF` does not
return absence. Its special seed is `2 ^ 31 - 1`; the second probe adds 1, which leaves the
range of `int`, and the wrapped sum gives the index `-2` of a special array of 7 slots. -/
theorem search_absent_overflow :
    construct 100 tenth ref_platform = .ok fresh100 ∧
    _hash_special (fun _ => 0x7FFFFFFF) fresh100 (0 : Nat) = 2 ^ 31 - 1 ∧
    Int.tmod (wrap_int (_hash_special (fun _ => 0x7FFFFFFF) fresh100 (0 : Nat) + 1)) 7 = -2 ∧
    search (fun _ => 0x7FFFFFFF) fresh100 (0 : Nat) = .error .undefined_behaviour := by
  decide!

/-- C3, overwrite: in a reachable state where slot `p` is occupied by key `k = e.key`, a
successful `insert(k, v2)` writes slot `p`: afterwards `p` holds `{k, v2, true}`, every
other slot is unchanged, so the occupied slots and the key of every slot are the same as
before, and `search(k)` returns `v2`. -/
theorem overwrite_in_place [Inhabited K] [Inhabited V] (hasher : K → Nat)
    (t t' : FunnelHashTable K V) (log : List (K × V)) (p : Pos) (e : Entry K V) (v2 : V)
    (hreach : Reachable hasher t log) (hp : slot t p = some e) (hocc : e.occupied = true)
    (hins : insert hasher t e.key v2 = (.ok true, t')) :
    slot t' p = some ⟨e.key, v2, true⟩ ∧
    (∀ q, q ≠ p → slot t' q = slot t q) ∧
    (∀ q, (slot t' q).map (fun x => (x.key, x.occupied)) =
      (slot t q).map (fun x => (x.key, x.occupied))) ∧
    search hasher t' e.key = .ok (some v2) := by
  have hinv := Inv_of_reachable hasher t log hreach
  obtain ⟨-, -, q, hq, rfl⟩ := insert_ok hasher t t' hinv.wf e.key v2 true hins
  have hpq : q = p := by
    have := hinv.target p e hp hocc
    rw [hq] at this
    simpa using this
  subst hpq
  have hsome : (slot t q).isSome := by simp [hp]
  have hslot := slot_place t e.key v2 q hsome
  refine ⟨by simp [hslot], fun r hr => by simp [hslot, hr], ?_, ?_⟩
  · intro r
    by_cases hr : r = q
    · subst hr
      simp [hslot, hp, hocc]
    · simp [hslot, hr]
  · have hinv' := Inv_insert hasher t _ log e.key v2 hinv hins
    exact search_of_inv hasher _ _ hinv' e.key v2 (by simp [last_value])

/-- Witness of C3: key 1 sits in slot 0 of level 0 with value 10; `insert(1, 11)` rewrites
that slot. -/
theorem overwrite_in_place_witness :
    slot demo2 (.level 0 0) = some ⟨1, 10, true⟩ ∧
    insert id demo2 1 11 = (.ok true, demo3) ∧
    slot demo3 (.level 0 0) = some ⟨1, 11, true⟩ ∧
    search id demo3 1 = .ok (some 11) :=
  have h := overwrite_in_place id demo2 demo3 [(2, 20), (1, 10)] (.level 0 0) ⟨1, 10, true⟩ 11
    demo2_reachable (by decide!) rfl (by decide!)
  ⟨by decide!, by decide!, h.1, h.2.2.2⟩

/-- C4, key uniqueness: in every reachable state two occupied slots (of the levels and the
special array together) that hold the same key are the same slot, and every key of a
successful insert is held by exactly one occupied slot. -/
theorem key_unique [Inhabited K] [Inhabited V] (hasher : K → Nat) (t : FunnelHashTable K V)
    (log : List (K × V)) (hreach : Reachable hasher t log) :
    (∀ (p q : Pos) (e e' : Entry K V), slot t p = some e → slot t q = some e' →
      e.occupied = true → e'.occupied = true → e.key = e'.key → p = q) ∧
    (∀ (k : K) (v : V), (k, v) ∈ log →
      ∃! p, ∃ e, slot t p = some e ∧ e.occupied = true ∧ e.key = k) := by
  have hinv := Inv_of_reachable hasher t log hreach
  have huniq : ∀ (p q : Pos) (e e' : Entry K V), slot t p = some e → slot t q = some e' →
      e.occupied = true → e'.occupied = true → e.key = e'.key → p = q := by
    intro p q e e' hp hq ho ho' hk
    have h1 := hinv.target p e hp ho
    have h2 := hinv.target q e' hq ho'
    rw [hk, h2] at h1
    simpa using h1.symm
  refine ⟨huniq, ?_⟩
  intro k v hmem
  obtain ⟨v', hv'⟩ := last_value_of_mem log k v hmem
  obtain ⟨p, hp⟩ := hinv.stored k v' hv'
  refine ⟨p, ⟨_, hp, rfl, rfl⟩, ?_⟩
  rintro q ⟨e, hq, ho, hk⟩
  exact huniq q p e _ hq hp ho rfl hk

/-- Witness of C4: in the table reached by `insert(1, 10)`, `insert(2, 20)`, `insert(1, 11)`
key 1, inserted twice, is held by one slot. -/
theorem key_unique_witness :
    Reachable id demo3 [(1, 11), (2, 20), (1, 10)] ∧
    ∃! p, ∃ e, slot demo3 p = some e ∧ e.occupied = true ∧ e.key = 1 :=
  ⟨demo3_reachable,
    (key_unique id demo3 [(1, 11), (2, 20), (1, 10)] demo3_reachable).2 1 10 (by decide)⟩

/-- C5, capacity-exhausted refusal: on every table with `num_inserts >= max_inserts`, and
for every key (stored or not) and value, `insert` throws "Hash table is full." and the table
after the call is the table before it; and with `num_inserts < max_inserts` it never throws
that error. -/
theorem insert_full_refusal (hasher : K → Nat) (t : FunnelHashTable K V) (k : K) (v : V) :
    (t.num_inserts ≥ t.max_inserts →
      insert hasher t k v = (.error (.runtime_error "Hash table is full."), t)) ∧
    (t.num_inserts < t.max_inserts →
      (insert hasher t k v).1 ≠ .error (.runtime_error "Hash table is full.")) := by
  constructor
  · intro hfull
    unfold insert
    simp [hfull]
  · intro hlt
    rcases insert_cases hasher t k v with ⟨hge, -⟩ | ⟨-, h1 | h1 | ⟨t', h1, -⟩⟩
    · omega
    · rw [h1]; simp
    · rw [h1]
      intro h
      simp only [Except.error.injEq, Error.runtime_error.injEq] at h
      exact absurd h (by decide)
    · rw [h1]; simp

/-- Witness of C5: `demo4` has `num_inserts = max_inserts = 4` and refuses key 1, which it
stores; `demo3` has `num_inserts = 3` and does not raise the error. -/
theorem insert_full_refusal_witness :
    (demo4.num_inserts ≥ demo4.max_inserts ∧
      insert id demo4 1 99 = (.error (.runtime_error "Hash table is full."), demo4)) ∧
    (demo3.num_inserts < demo3.max_inserts ∧
      (insert id demo3 3 30).1 ≠ .error (.runtime_error "Hash table is full.")) :=
  ⟨⟨by decide!, (insert_full_refusal id demo4 1 99).1 (by decide!)⟩,
    ⟨by decide!, (insert_full_refusal id demo3 3 30).2 (by decide!)⟩⟩

/-- C6, capacity ceiling: in a state reached from a freshly constructed table by exactly
`max_inserts` successful inserts (of pairwise distinct keys or not), the next insert of any
key throws "Hash table is full.", whatever number of slots is still empty. -/
theorem capacity_ceiling [Inhabited K] [Inhabited V] (hasher : K → Nat)
    (t : FunnelHashTable K V) (log : List (K × V)) (hreach : Reachable hasher t log)
    (hlen : (log.length : Int) = t.max_inserts) (k : K) (v : V) :
    insert hasher t k v = (.error (.runtime_error "Hash table is full."), t) := by
  have hinv := Inv_of_reachable hasher t log hreach
  have hfull : t.num_inserts ≥ t.max_inserts := by rw [hinv.count, hlen]
  unfold insert
  simp [hfull]

/-- Witness of C6: after four successful inserts into the table of capacity 8 and delta
0.5 (`max_inserts = 4`), whose seven slots hold three keys, `insert(9, 90)` is refused. -/
theorem capacity_ceiling_witness :
    Reachable id demo4 [(3, 30), (1, 11), (2, 20), (1, 10)] ∧
    (([(3, 30), (1, 11), (2, 20), (1, 10)] : List (Nat × Nat)).length : Int)
      = demo4.max_inserts ∧
    insert id demo4 9 90 = (.error (.runtime_error "Hash table is full."), demo4) :=
  ⟨demo4_reachable, by decide!,
    capacity_ceiling id demo4 [(3, 30), (1, 11), (2, 20), (1, 10)] demo4_reachable
      (by decide!) 9 90⟩

/-- C7 as stated fails: the constructor computes `max_inserts` from the double product
`delta * capacity`, which is rounded before it is truncated. `FunnelHashTable(40, 0.7)` has
`max_inserts = 12`: the product of the double `0.7` and 40 rounds to `28.0`, while
`capacity - floor(delta * capacity)` is 13 for that double, whose value is below `7 / 10`.
`FunnelHashTable(100, 0.29)` has `max_inserts = 72`: the product rounds to
`28.999999999999996`, while `100 - floor(0.29 * 100)` is 71 for the decimal fraction. -/
theorem max_inserts_not_floor :
    (construct 40 seven_tenths ref_platform = .ok fresh40 ∧ is_double seven_tenths ∧
      Double.mul (.fin seven_tenths) (.of_int 40) = .fin 28 ∧
      fresh40.max_inserts = 12 ∧
      fresh40.capacity - ⌊fresh40.delta * fresh40.capacity⌋ = 13) ∧
    (construct 100 twenty_nine_hundredths ref_platform = .ok fresh100b ∧
      is_double twenty_nine_hundredths ∧
      Double.nearest (29 / 100) = .fin twenty_nine_hundredths ∧
      fresh100b.max_inserts = 72 ∧ (100 : Int) - ⌊(29 / 100 : ℚ) * 100⌋ = 71) := by
  unfold is_double
  decide!

/-- C7 amended: for a capacity that is an `int`, the constructor returns a table with
`num_inserts = 0` that has `0 ≤ num_inserts ≤ max_inserts ≤ capacity` and
`max_inserts = capacity - static_cast<int>(delta * capacity)`, the product being the double
product, rounded to the nearest double; every call of `insert`, returning or throwing, on a
table with these bounds leaves a table with these bounds; so they hold in every reachable
state of a table whose capacity is an `int`. -/
theorem counter_bound_invariant [Inhabited K] [Inhabited V] (hasher : K → Nat) :
    (∀ (capacity : Int) (delta : ℚ) (env : Platform) (t : FunnelHashTable K V),
      capacity < 2 ^ 31 → construct capacity delta env = .ok t →
        t.num_inserts = 0 ∧ counters_ok t) ∧
    (∀ (t : FunnelHashTable K V) (k : K) (v : V),
      counters_ok t → counters_ok (insert hasher t k v).2) ∧
    (∀ (t : FunnelHashTable K V) (log : List (K × V)),
      Reachable hasher t log → t.capacity < 2 ^ 31 → counters_ok t) := by
  refine ⟨?_, ?_, ?_⟩
  · intro capacity delta env t hb h
    have hinv := Inv_construct hasher capacity delta env t h
    obtain ⟨hcap, h0, h1, htc, -, -, -, hmax, -⟩ := construct_ok capacity delta env t h
    obtain ⟨hf0, -⟩ := held_back_bounds capacity delta hcap hb h0 h1
    have hn : t.num_inserts = 0 := by simpa using hinv.count
    have hceil : t.max_inserts ≤ t.capacity := by
      rw [hmax, htc]
      omega
    exact ⟨hn, by omega, hinv.bound, hceil, hinv.max_def⟩
  · intro t k v hok
    rcases insert_cases hasher t k v with ⟨-, h1⟩ | ⟨hlt, h1 | h1 | ⟨t', h1, h2, h3, h4, h5⟩⟩
    · rw [h1]; exact hok
    · rw [h1]; exact hok
    · rw [h1]; exact hok
    · rw [h1]
      obtain ⟨a, b, c, d⟩ := hok
      refine ⟨by simp only; omega, by simp only; omega, by simp only; omega, ?_⟩
      simp only [h3, h4, h5]
      exact d
  · intro t log hreach hb
    have hinv := Inv_of_reachable hasher t log hreach
    have : 0 ≤ t.num_inserts := by rw [hinv.count]; exact Int.natCast_nonneg _
    obtain ⟨hf0, -⟩ := held_back_bounds t.capacity t.delta hinv.valid.1 hb hinv.valid.2.1
      hinv.valid.2.2
    have hmax := hinv.max_def
    exact ⟨this, hinv.bound, by omega, hinv.max_def⟩

/-- Witness of C7 amended: the table of capacity 40 and delta 0.7 is constructed with
`num_inserts = 0` and `max_inserts = 40 - 28 = 12`; in the table of capacity 8 and delta 0.5
the bounds hold before and after the fifth insert, which throws. -/
theorem counter_bound_invariant_witness :
    ((40 : Int) < 2 ^ 31 ∧ construct 40 seven_tenths ref_platform = .ok fresh40 ∧
      fresh40.num_inserts = 0 ∧ counters_ok fresh40 ∧ fresh40.max_inserts = 12) ∧
    (counters_ok demo4 ∧ counters_ok (insert id demo4 9 90).2) :=
  have h := counter_bound_invariant (K := Nat) (V := Nat) id
  ⟨⟨by decide, by decide!, (h.1 40 seven_tenths ref_platform fresh40 (by decide) (by decide!)).1,
      (h.1 40 seven_tenths ref_platform fresh40 (by decide) (by decide!)).2, by decide⟩,
    ⟨h.2.2 demo4 _ demo4_reachable (by decide!),
      h.2.1 demo4 9 90 (h.2.2 demo4 _ demo4_reachable (by decide!))⟩⟩

/-- C8, counting convention: `size()` is `num_inserts`; a call of `insert` that returns
`true` raises `size()` by exactly 1, for a new key as for a key already stored; a call that
throws leaves `size()` as it was; so in a reachable state `size()` is the number of
successful calls of `insert` since construction. -/
theorem counting_convention [Inhabited K] [Inhabited V] (hasher : K → Nat)
    (t : FunnelHashTable K V) (k : K) (v : V) :
    size t = t.num_inserts ∧
    (∀ t', insert hasher t k v = (.ok true, t') → size t' = size t + 1) ∧
    (∀ e, (insert hasher t k v).1 = .error e → size (insert hasher t k v).2 = size t) ∧
    (∀ log, Reachable hasher t log → size t = (log.length : Int)) := by
  refine ⟨rfl, ?_, ?_, ?_⟩
  · intro t' h
    exact (insert_ok_true hasher t t' k v true h).2.2.1
  · intro e h
    rw [insert_error_table hasher t k v e h]
  · intro log hreach
    exact (Inv_of_reachable hasher t log hreach).count

/-- Witness of C8: `demo2` stores keys 1 and 2 and has size 2; `insert(1, 11)` overwrites
key 1 and the size becomes 3; the refused insert into `demo4` leaves size 4. -/
theorem counting_convention_witness :
    (insert id demo2 1 11 = (.ok true, demo3) ∧ size demo2 = 2 ∧
      size demo3 = size demo2 + 1) ∧
    ((insert id demo4 9 90).1 = .error (.runtime_error "Hash table is full.") ∧
      size (insert id demo4 9 90).2 = size demo4) ∧
    (Reachable id demo3 [(1, 11), (2, 20), (1, 10)] ∧ size demo3 = 3) :=
  ⟨⟨by decide!, by decide!, (counting_convention id demo2 1 11).2.1 demo3 (by decide!)⟩,
    ⟨by decide!, (counting_convention id demo4 9 90).2.2.1 _
      (by decide! : (insert id demo4 9 90).1 = .error (.runtime_error "Hash table is full."))⟩,
    ⟨demo3_reachable, (counting_convention id demo3 0 0).2.2.2 _ demo3_reachable⟩⟩

/-- C9, constructor validation: construction throws `invalid_argument` if and only if
`capacity <= 0` or `delta` is not strictly between 0 and 1; for `capacity > 0` and a double
`delta` with `0 < delta < 1` it returns a table with `num_inserts = 0` whose slots are all
unoccupied. -/
theorem construct_validation [Inhabited K] [Inhabited V] (capacity : Int) (delta : ℚ)
    (env : Platform) :
    ((∃ what, (construct capacity delta env : Except Error (FunnelHashTable K V))
        = .error (.invalid_argument what)) ↔ (capacity ≤ 0 ∨ ¬ (0 < delta ∧ delta < 1))) ∧
    (0 < capacity → 0 < delta → delta < 1 → is_double delta →
      ∃ t : FunnelHashTable K V, construct capacity delta env = .ok t ∧ t.num_inserts = 0 ∧
        ∀ (p : Pos) (e : Entry K V), slot t p = some e → e.occupied = false) := by
  refine ⟨⟨?_, ?_⟩, ?_⟩
  · rintro ⟨what, hw⟩
    by_contra hcon
    simp only [not_or, not_le, not_not] at hcon
    unfold construct at hw
    split at hw
    · omega
    · split at hw
      · next hdelta => exact hdelta hcon.2
      · simp only at hw
        split at hw <;> cases hw
  · intro h
    unfold construct
    by_cases hcap : capacity ≤ 0
    · exact ⟨"Capacity must be positive.", by simp only [hcap, if_true]⟩
    · rcases h with h | h
      · exact absurd h hcap
      · exact ⟨"Delta must be between 0 and 1.",
          by simp only [hcap, if_false, h, not_false_eq_true, if_true]⟩
  · intro hcap h0 h1 hd
    obtain ⟨t, ht⟩ := construct_succeeds (K := K) (V := V) capacity delta env hcap h0 h1 hd
    obtain ⟨-, -, -, -, -, hn, -, -, hempty⟩ := construct_ok capacity delta env t ht
    exact ⟨t, ht, hn, hempty⟩

/-- Witness of C9: capacity 0 and delta 1 are refused; capacity 100 with delta 0.1 gives a
table with `num_inserts = 0` and no occupied slot. -/
theorem construct_validation_witness :
    (∃ what, (construct 0 tenth ref_platform : Except Error (FunnelHashTable Nat Nat))
      = .error (.invalid_argument what)) ∧
    (∃ what, (construct 100 1 ref_platform : Except Error (FunnelHashTable Nat Nat))
      = .error (.invalid_argument what)) ∧
    ((0 : Int) < 100 ∧ (0 : ℚ) < tenth ∧ tenth < 1 ∧ is_double tenth ∧
      ∃ t : FunnelHashTable Nat Nat, construct 100 tenth ref_platform = .ok t ∧
        t.num_inserts = 0 ∧ ∀ (p : Pos) (e : Entry Nat Nat), slot t p = some e →
          e.occupied = false) :=
  ⟨(construct_validation 0 tenth ref_platform).1.2 (Or.inl (by decide)),
    (construct_validation 100 1 ref_platform).1.2 (Or.inr (by norm_num)),
    by norm_num, by decide!, by decide!, tenth_is_double,
    (construct_validation 100 tenth ref_platform).2 (by norm_num) (by decide!) (by decide!)
      tenth_is_double⟩

/-- C10 as stated fails: on the table of capacity 100 and delta 0.1 with all salts 0, under
the key-hash function that is constantly 0, the ninety distinct keys `0, …, 89` are not all
inserted. Every key has the same bucket in each of the nine levels and the same two special
probes, 65 slots in all: the first 65 inserts return `true` and the 66th throws
"Special array insertion failed; table is full.". -/
theorem scenario_all_succeed_fails :
    construct 100 tenth ref_platform = .ok fresh100 ∧
    (keys90.map Prod.fst).Nodup ∧ keys90.length = 90 ∧
    (insert_seq (fun _ => 0) fresh100 (keys90.take 65)).1 = .ok true ∧
    (insert_seq (fun _ => 0) fresh100 (keys90.take 66)).1 =
      .error (.runtime_error "Special array insertion failed; table is full.") ∧
    (insert_seq (fun _ => 0) fresh100 keys90).1 =
      .error (.runtime_error "Special array insertion failed; table is full.") := by
  decide!

/-- C10 amended: for capacity 100 and delta 0.1 the constructor returns a table with
`max_inserts = 90`, for any salts and math library; for every key-hash function and every
sequence of 90 pairwise distinct keys whose inserts into the fresh table all return `true`,
each of the 90 keys is afterwards found by `search` with its value, and every further insert
throws "Hash table is full.". -/
theorem scenario_capacity_100 [Inhabited K] [Inhabited V] (hasher : K → Nat)
    (env : Platform) (kvs : List (K × V)) (hnd : (kvs.map Prod.fst).Nodup)
    (hlen : kvs.length = 90) :
    ∃ t0 : FunnelHashTable K V, construct 100 tenth env = .ok t0 ∧ t0.max_inserts = 90 ∧
      ∀ t, insert_seq hasher t0 kvs = (.ok true, t) →
        (∀ kv ∈ kvs, search hasher t kv.1 = .ok (some kv.2)) ∧
        (∀ (k : K) (v : V),
          insert hasher t k v = (.error (.runtime_error "Hash table is full."), t)) := by
  obtain ⟨t0, ht0⟩ := construct_succeeds (K := K) (V := V) 100 tenth env (by norm_num)
    (by decide!) (by decide!) tenth_is_double
  obtain ⟨-, -, -, -, -, -, -, hmax, -⟩ := construct_ok 100 tenth env t0 ht0
  have hmax90 : t0.max_inserts = 90 := by
    rw [hmax]
    decide!
  refine ⟨t0, ht0, hmax90, ?_⟩
  intro t hseq
  obtain ⟨hreach, hm⟩ := reachable_insert_seq hasher kvs t0 t []
    (Reachable.fresh 100 tenth env t0 ht0) hseq
  have hinv := Inv_of_reachable hasher t _ hreach
  constructor
  · rintro ⟨k, v⟩ hkv
    exact search_of_inv hasher t _ hinv k v (last_value_reverse kvs [] k v hkv hnd)
  · intro k v
    have hfull : t.num_inserts ≥ t.max_inserts := by
      rw [hinv.count, hm, hmax90]
      simp [hlen]
    unfold insert
    simp [hfull]

/-- Witness of C10 amended: under the identity key-hash function the keys `0, …, 89` are all
inserted into the table of capacity 100 and delta 0.1. -/
theorem scenario_capacity_100_witness :
    (keys90.map Prod.fst).Nodup ∧ keys90.length = 90 ∧
    (insert_seq id fresh100 keys90).1 = .ok true ∧
    (∀ kv ∈ keys90, search id (insert_seq id fresh100 keys90).2 kv.1 = .ok (some kv.2)) ∧
    (∀ (k v : Nat), insert id (insert_seq id fresh100 keys90).2 k v =
      (.error (.runtime_error "Hash table is full."), (insert_seq id fresh100 keys90).2)) := by
  obtain ⟨t0, ht0, -, h⟩ := scenario_capacity_100 id ref_platform keys90 (by decide!)
    (by decide!)
  have h100 : construct 100 tenth ref_platform = .ok fresh100 := by decide!
  rw [h100] at ht0
  simp only [Except.ok.injEq] at ht0
  subst ht0
  have hrun : (insert_seq id fresh100 keys90).1 = .ok true := by decide!
  have hpair : insert_seq id fresh100 keys90 = (.ok true, (insert_seq id fresh100 keys90).2) :=
    Prod.ext hrun rfl
  exact ⟨by decide!, by decide!, hrun, (h _ hpair).1, (h _ hpair).2⟩

/-- C12, sizing partition: for a capacity that is an `int` and a `delta` that is a double, a
constructed table has `special_size ≥ 1`, `primary_size ≥ 0` and
`primary_size + special_size = capacity`; the bucket counts of the created levels sum to at
most `primary_size / beta` (integer division), so the level slots number at most
`primary_size` and all slots at most `capacity`; level `i` holds exactly
`bucket_count[i] * beta` entries and the special array exactly `special_size` entries. -/
theorem sizing_partition [Inhabited K] [Inhabited V] (capacity : Int) (delta : ℚ)
    (env : Platform) (t : FunnelHashTable K V) (hb : capacity < 2 ^ 31)
    (hd : is_double delta) (h : construct capacity delta env = .ok t) :
    1 ≤ t.special_size ∧ 0 ≤ t.primary_size ∧
    t.primary_size + t.special_size = t.capacity ∧
    t.level_bucket_counts.sum ≤ Int.tdiv t.primary_size t.beta ∧
    (t.level_bucket_counts.map (fun c => c * t.beta)).sum ≤ t.primary_size ∧
    (total_slots t : Int) ≤ t.capacity ∧
    t.levels.map (fun level => (level.length : Int))
      = t.level_bucket_counts.map (fun c => c * t.beta) ∧
    (t.special_array.length : Int) = t.special_size := by
  obtain ⟨hspec, -, hprim, hsum⟩ := construct_partition capacity delta env t h
  obtain ⟨-, -, hcsum, -⟩ := construct_budget capacity delta env t h hb hd
  obtain ⟨hlen, hslen, -, hmul, htot⟩ := construct_slots capacity delta env t h
  obtain ⟨-, -, -, hcap, -, -, -, -, -⟩ := construct_ok capacity delta env t h
  refine ⟨hspec, hprim, by rw [hcap]; exact hsum, hcsum, ?_, by rw [hcap]; exact htot,
    hlen, hslen⟩
  rw [sum_map_mul]
  exact hmul

/-- Witness of C12: the table of capacity 40 and delta 0.7, with `special_size = 20`,
`primary_size = 20`, ten buckets of two slots in seven levels. -/
theorem sizing_partition_witness :
    (40 : Int) < 2 ^ 31 ∧ is_double seven_tenths ∧
    construct 40 seven_tenths ref_platform = .ok fresh40 ∧
    fresh40.primary_size + fresh40.special_size = fresh40.capacity ∧
    fresh40.level_bucket_counts.sum ≤ Int.tdiv fresh40.primary_size fresh40.beta ∧
    (total_slots fresh40 : Int) ≤ fresh40.capacity :=
  have hd : is_double seven_tenths := by unfold is_double; decide!
  have h := sizing_partition 40 seven_tenths ref_platform fresh40 (by decide) hd (by decide!)
  ⟨by decide, hd, by decide!, h.2.2.1, h.2.2.2.1, h.2.2.2.2.2.1⟩

/-- C13, evaluated at the failing input: `FunnelHashTable(100, 1e-320)`. The double `1e-320`
is subnormal and lies strictly between 0 and 1; the quotient `1 / delta` is `+∞`, and so are
its logarithm and the argument of the conversion to `int` in line 37, which yields
`alpha = INT_MIN`. The table is built without a level, and the number of levels, 0, is not
at most `alpha`. -/
theorem level_count_above_alpha :
    is_double subnormal_delta ∧ 0 < subnormal_delta ∧ subnormal_delta < 1 ∧
    Double.div (.of_int 1) (.fin subnormal_delta) = .inf false ∧
    construct 100 subnormal_delta ref_platform = .ok tiny100 ∧
    tiny100.alpha = -2 ^ 31 ∧ tiny100.levels = [] ∧ tiny100.level_bucket_counts = [] ∧
    ¬ ((tiny100.levels.length : Int) ≤ tiny100.alpha) := by
  unfold is_double
  decide!

/-- C14, evaluated at the failing input: on the fresh table of capacity 100 and delta 0.1
(all salts 0), `contains` of a never inserted key whose hash is `0x7FFFFFFF` is not
`false`: it is `search(key).has_value()`, and that search reads the special array at index
`-2`. -/
theorem contains_absent_overflow :
    construct 100 tenth ref_platform = .ok fresh100 ∧
    contains hash_max fresh100 0 = .error .undefined_behaviour ∧
    contains hash_max fresh100 0 ≠ .ok false := by
  decide!

/-- C15, evaluated at the failing input: the table of capacity 100 and delta 0.1 (all salts
0) after the keys `0, …, 63` are inserted under the key-hash function that is constantly
`0x7FFFFFFF` has `num_inserts = 64 < 90`; for key 64 the 63 slots of its buckets and its
first special probe are occupied by other keys and its second special probe has index `-2`;
`insert(64, 0)` neither returns `true` nor throws the special-array error. -/
theorem insert_blocked_overflow :
    (insert_seq hash_max fresh100 (keys90.take 64)).1 = .ok true ∧
    blocked100.num_inserts = 64 ∧ blocked100.max_inserts = 90 ∧
    (probes hash_max blocked100 64).map
        (fun p => (slot blocked100 p).map (fun e => decide (e.occupied = true ∧ e.key ≠ 64)))
      = List.replicate 64 (some true) ++ [none] ∧
    (probes hash_max blocked100 64).getLast? = some (.special (-2)) ∧
    insert hash_max blocked100 64 0 = (.error .undefined_behaviour, blocked100) := by
  decide!

/-- C16, evaluated at the failing input: with special seed `2 ^ 31 - 1` (key hash
`0x7FFFFFFF`, special salt 0) and a special array of 7 slots, the probes `j = 0, 1` of
`insert` and `search` have the indices `1` and `-2`; the second is not
`((seed % 7) + 1) % 7 = 2` and is not in `[0, 7)`, so no slot is there. -/
theorem special_probe_overflow :
    _hash_special hash_max fresh100 0 = 2 ^ 31 - 1 ∧
    (fresh100.special_array.length : Int) = 7 ∧ probe_limit fresh100.capacity = 2 ∧
    special_probes (2 ^ 31 - 1) 7 0 2 = [.special 1, .special (-2)] ∧
    (((2 ^ 31 - 1 : Int) % 7) + 1) % 7 = 2 ∧
    slot fresh100 (.special (-2)) = none ∧ slot fresh100 (.special 2) = some Entry.empty := by
  decide!

/-- C17, frame and first-fit placement: a successful `insert(k, v)` in a reachable state
writes `{k, v, true}` to one slot `q`, the first slot of the traversal of `k` (levels in
ascending order, the slots of the bucket of `k` in ascending order, then the special probes
`j = 0, 1, …`) that is empty or holds `k`: the slots before `q` are occupied by other keys.
Every other slot is unchanged, and so are `capacity`, `delta`, `max_inserts`, `alpha`,
`beta`, `special_size`, `primary_size`, the number and lengths of the levels, the length of
the special array, the bucket counts and all salts; `num_inserts` grows by 1 and
`special_occupancy` grows by 1 exactly when `q` is a special slot. -/
theorem insert_frame [Inhabited K] [Inhabited V] (hasher : K → Nat)
    (t t' : FunnelHashTable K V) (log : List (K × V)) (k : K) (v : V)
    (hreach : Reachable hasher t log) (hins : insert hasher t k v = (.ok true, t')) :
    ∃ (q : Pos) (pre post : List Pos),
      probes hasher t k = pre ++ q :: post ∧
      (∀ r ∈ pre, ∃ e, slot t r = some e ∧ e.occupied = true ∧ e.key ≠ k) ∧
      (∃ e, slot t q = some e ∧ (e.occupied = false ∨ e.key = k)) ∧
      slot t' q = some ⟨k, v, true⟩ ∧
      (∀ r, r ≠ q → slot t' r = slot t r) ∧
      (t'.capacity = t.capacity ∧ t'.delta = t.delta ∧ t'.max_inserts = t.max_inserts ∧
        t'.alpha = t.alpha ∧ t'.beta = t.beta ∧ t'.special_size = t.special_size ∧
        t'.primary_size = t.primary_size ∧
        t'.levels.map List.length = t.levels.map List.length ∧
        t'.special_array.length = t.special_array.length ∧
        t'.level_bucket_counts = t.level_bucket_counts ∧
        t'.level_salts = t.level_salts ∧ t'.special_salt = t.special_salt ∧
        t'.num_inserts = t.num_inserts + 1 ∧
        t'.special_occupancy =
          t.special_occupancy + q.special_growth) := by
  have hinv := Inv_of_reachable hasher t log hreach
  obtain ⟨-, -, q, hq, rfl⟩ := insert_ok hasher t t' hinv.wf k v true hins
  obtain ⟨pre, post, hsplit, hpre⟩ := first_fit_split _ _ _ _ hq
  obtain ⟨e, he, hfit⟩ := first_fit_slot _ _ _ _ hq
  have hsome : (slot t q).isSome := by simp [he]
  have hslot := slot_place t k v q hsome
  exact ⟨q, pre, post, hsplit, hpre, ⟨e, he, hfit⟩, by simp [hslot],
    fun r hr => by simp [hslot, hr], place_frame t k v q hsome⟩

/-- Witness of C17: `insert(2, 20)` on `demo1`, which holds key 1 in slot 0 of level 0. -/
theorem insert_frame_witness :
    Reachable id demo1 [(1, 10)] ∧ insert id demo1 2 20 = (.ok true, demo2) ∧
    ∃ (q : Pos) (pre post : List Pos),
      probes id demo1 2 = pre ++ q :: post ∧
      (∀ r ∈ pre, ∃ e, slot demo1 r = some e ∧ e.occupied = true ∧ e.key ≠ 2) ∧
      (∃ e, slot demo1 q = some e ∧ (e.occupied = false ∨ e.key = 2)) ∧
      slot demo2 q = some ⟨2, 20, true⟩ ∧
      (∀ r, r ≠ q → slot demo2 r = slot demo1 r) ∧
      (demo2.capacity = demo1.capacity ∧ demo2.delta = demo1.delta ∧
        demo2.max_inserts = demo1.max_inserts ∧
        demo2.alpha = demo1.alpha ∧ demo2.beta = demo1.beta ∧
        demo2.special_size = demo1.special_size ∧
        demo2.primary_size = demo1.primary_size ∧
        demo2.levels.map List.length = demo1.levels.map List.length ∧
        demo2.special_array.length = demo1.special_array.length ∧
        demo2.level_bucket_counts = demo1.level_bucket_counts ∧
        demo2.level_salts = demo1.level_salts ∧ demo2.special_salt = demo1.special_salt ∧
        demo2.num_inserts = demo1.num_inserts + 1 ∧
        demo2.special_occupancy =
          demo1.special_occupancy + q.special_growth) :=
  ⟨demo1_reachable, by decide!,
    insert_frame id demo1 demo2 [(1, 10)] 2 20 demo1_reachable (by decide!)⟩

/-- C18, level indexing is in bounds: for a salt in `[0, 2 ^ 31 - 1]` the value of `_hash`
is `(h xor salt) mod 2 ^ 31`, with `h` the 64-bit hash of the key, and lies in
`[0, 2 ^ 31 - 1]`; in every reachable state every level `i` has a bucket count `c ≥ 1`, a
salt, and `c * beta` entries, the bucket index `seed % c` of every key lies in `[0, c)`,
and every index of that bucket exists in the level; so the level loops of `insert` and
`search` never read outside a level or divide by zero. -/
theorem level_index_in_bounds [Inhabited K] [Inhabited V] (hasher : K → Nat) :
    (∀ (key : K) (salt : Int), 0 ≤ salt → salt ≤ 2 ^ 31 - 1 →
      _hash hasher key salt = (((hasher key % 2 ^ 64) ^^^ salt.toNat) % 2 ^ 31 : Nat) ∧
      0 ≤ _hash hasher key salt ∧ _hash hasher key salt ≤ 2 ^ 31 - 1) ∧
    (∀ (t : FunnelHashTable K V) (log : List (K × V)), Reachable hasher t log →
      ∀ (key : K) (i : Nat) (level : List (Entry K V)), t.levels[i]? = some level →
        ∃ c salt, t.level_bucket_counts[i]? = some c ∧ t.level_salts[i]? = some salt ∧
          1 ≤ c ∧ (level.length : Int) = c * t.beta ∧
          0 ≤ Int.tmod (_hash hasher key salt) c ∧ Int.tmod (_hash hasher key salt) c < c ∧
          ∀ idx, Int.tmod (_hash hasher key salt) c * t.beta ≤ idx →
            idx < Int.tmod (_hash hasher key salt) c * t.beta + t.beta →
            (at? level idx).isSome) ∧
    (∀ (t : FunnelHashTable K V) (log : List (K × V)), Reachable hasher t log →
      ∀ (key : K) (value : V) (e : Error),
        insert_levels hasher t key value 0 t.levels.length ≠ .error e ∧
        search_levels hasher t key 0 t.levels.length ≠ .error e) := by
  refine ⟨?_, ?_, ?_⟩
  · intro key salt h0 h1
    have heq := hash_eq_mod hasher key salt h0 (by omega)
    refine ⟨heq, hash_nonneg hasher key salt, ?_⟩
    rw [heq]
    have : ((hasher key % 2 ^ 64) ^^^ salt.toNat) % 2 ^ 31 < 2 ^ 31 :=
      Nat.mod_lt _ (by norm_num)
    omega
  · intro t log hreach key i level hl
    have hwf := (Inv_of_reachable hasher t log hreach).wf
    have hi : i < t.levels.length := by
      by_contra hcon
      rw [List.getElem?_eq_none (by omega)] at hl
      cases hl
    have hic : i < t.level_bucket_counts.length := by rw [hwf.counts_len]; exact hi
    have his : i < t.level_salts.length := by rw [hwf.salts_len]; exact hi
    have hc : t.level_bucket_counts[i]? = some t.level_bucket_counts[i] :=
      List.getElem?_eq_getElem hic
    have hs : t.level_salts[i]? = some t.level_salts[i] := List.getElem?_eq_getElem his
    obtain ⟨hc1, hlen⟩ := hwf.level_len i level _ hl hc
    obtain ⟨b0, b1, b2⟩ := bucket_in_bounds level (_hash hasher key t.level_salts[i])
      t.level_bucket_counts[i] t.beta (hash_nonneg hasher key _) hc1
      (beta_nonneg_of_level _ t.beta level.length hc1 hlen) hlen
    exact ⟨_, _, hc, hs, hc1, hlen, b0, b1, b2⟩
  · intro t log hreach key value e
    exact levels_no_error hasher t (Inv_of_reachable hasher t log hreach).wf key value e

/-- Witness of C18: the hash of key 5 with salt 3, and the levels of `demo3`. -/
theorem level_index_in_bounds_witness :
    ((0 : Int) ≤ 3 ∧ (3 : Int) ≤ 2 ^ 31 - 1 ∧ _hash id (5 : Nat) 3 = 6) ∧
    (Reachable id demo3 [(1, 11), (2, 20), (1, 10)] ∧
      insert_levels id demo3 7 70 0 demo3.levels.length ≠ .error .undefined_behaviour ∧
      search_levels id demo3 7 0 demo3.levels.length ≠ .error .undefined_behaviour) :=
  have h := level_index_in_bounds (K := Nat) (V := Nat) id
  ⟨⟨by decide, by decide, (h.1 5 3 (by decide) (by decide)).1.trans (by decide)⟩,
    ⟨demo3_reachable, h.2.2 demo3 _ demo3_reachable 7 70 .undefined_behaviour⟩⟩

/-- C19, occupancy versus counter: in every reachable state the number of occupied slots
is the number of distinct keys of the successful inserts, which are the keys stored; it is
at most `num_inserts`, which is at most `max_inserts`; it equals `num_inserts` exactly when
the keys of the successful inserts are pairwise distinct, that is when no successful insert
overwrote a stored key; and `0 ≤ special_occupancy ≤ num_inserts`. -/
theorem occupancy_counter [Inhabited K] [Inhabited V] (hasher : K → Nat)
    (t : FunnelHashTable K V) (log : List (K × V)) (hreach : Reachable hasher t log) :
    occupied_count t = distinct_keys log ∧
    (∀ k, (∃ p e, slot t p = some e ∧ e.occupied = true ∧ e.key = k) ↔
      k ∈ log.map Prod.fst) ∧
    (occupied_count t : Int) ≤ t.num_inserts ∧ t.num_inserts ≤ t.max_inserts ∧
    ((occupied_count t : Int) = t.num_inserts ↔ (log.map Prod.fst).Nodup) ∧
    0 ≤ t.special_occupancy ∧ t.special_occupancy ≤ t.num_inserts := by
  have hinv := Inv_of_reachable hasher t log hreach
  obtain ⟨hocc, hso0, hso1⟩ := occupancy_of_reachable hasher t log hreach
  have hlen : (log.map Prod.fst).dedup.length ≤ log.length := by
    have := (List.dedup_sublist (log.map Prod.fst)).length_le
    simpa using this
  refine ⟨hocc, stored_iff_logged hasher t log hinv, ?_, hinv.bound, ?_, hso0, hso1⟩
  · rw [hocc, hinv.count]
    exact_mod_cast hlen
  · rw [hocc, hinv.count, ← dedup_length_eq_iff]
    simp only [distinct_keys, List.length_map]
    exact_mod_cast Iff.rfl

/-- Witness of C19: after `insert(1, 10)`, `insert(2, 20)`, `insert(1, 11)` two slots are
occupied and `num_inserts = 3`; before the overwrite both are 2. -/
theorem occupancy_counter_witness :
    (Reachable id demo3 [(1, 11), (2, 20), (1, 10)] ∧ occupied_count demo3 = 2 ∧
      demo3.num_inserts = 3 ∧ ¬ ([(1, 11), (2, 20), (1, 10)].map Prod.fst).Nodup) ∧
    (Reachable id demo2 [(2, 20), (1, 10)] ∧ (occupied_count demo2 : Int) = demo2.num_inserts ∧
      ([(2, 20), (1, 10)].map Prod.fst).Nodup) :=
  have h3 := occupancy_counter id demo3 [(1, 11), (2, 20), (1, 10)] demo3_reachable
  have h2 := occupancy_counter id demo2 [(2, 20), (1, 10)] demo2_reachable
  ⟨⟨demo3_reachable, h3.1.trans (by decide), by decide!, by decide⟩,
    ⟨demo2_reachable, h2.2.2.2.2.1.2 (by decide), by decide⟩⟩

/-- C20, evaluated at the failing input: `FunnelHashTable(100, 1e-320)`. The quotient
`1 / delta` of the subnormal double is `+∞`; `2 * log2(1 / delta)` and
`4 * log2(1 / delta) + 10` are `+∞`, and their conversions to `int` give
`beta = alpha = INT_MIN`: `beta ≥ 1` and `alpha ≥ 11` fail, `alpha > 0` is false, and `a1`
is the fallback `total_buckets`, which is `99 / INT_MIN = 0`. -/
theorem sizing_unguarded_overflow :
    (0 : Int) < 100 ∧ 0 < subnormal_delta ∧ subnormal_delta < 1 ∧
    ref_platform.log2 (Double.div (.of_int 1) (.fin subnormal_delta)) = .inf false ∧
    Double.ceil (Double.mul (.of_int 2) (.inf false)) = .inf false ∧
    Double.ceil (Double.add (Double.mul (.of_int 4) (.inf false)) (.of_int 10)) = .inf false ∧
    construct 100 subnormal_delta ref_platform = .ok tiny100 ∧
    tiny100.beta = -2 ^ 31 ∧ tiny100.alpha = -2 ^ 31 ∧
    ¬ (1 ≤ tiny100.beta) ∧ ¬ (11 ≤ tiny100.alpha) ∧ ¬ (tiny100.alpha > 0) ∧
    Int.tdiv tiny100.primary_size tiny100.beta = 0 := by
  decide!


end Operations

end FunnelHashing
